import Mathlib

/-!
Verification of the EPUB translation pipeline of this repository
(segment extraction, chunking, chunk codec with three-tier fallback,
inline-marker round trip, reinjection and per-file orchestration),
shallowly embedded from `src/epub.py`.

Modelling conventions:
* Python strings are Lean `String` (sequences of unicode scalar values;
  Python string indexing/length are code-point based, matching `String.data`).
* Python `str.strip` and the regex class `\s` are modelled with the ASCII
  whitespace set (space, tab, newline, carriage return, vertical tab,
  form feed); the claims under study do not depend on exotic unicode spaces.
* The regex class `\d` of the marker pattern is modelled as the ASCII digits.
* Python dictionaries keyed by `int` are modelled as association lists with
  insert-or-overwrite semantics (`dictInsert`), keys unique by construction.
* `bs4` document trees are modelled by the mutual inductive `PNode` /
  `PNodeList`: a node is a text node or a tag with name, `href` and `id`
  attributes (empty string meaning absent) and a multi-valued `class`
  attribute, exactly the attributes the pipeline reads and writes.
-/

namespace EpubAI

/-- Python whitespace predicate used by `str.strip` and the regex class
`\s`, restricted to the ASCII whitespace characters. -/
def isPySpace (c : Char) : Bool :=
  c = ' ' || c = '\t' || c = '\n' || c = '\r' || c = '\x0b' || c = '\x0c'

/-- Model of Python `str.strip()` (left and right trim). -/
def pyStrip (s : String) : String :=
  String.mk (((s.data.dropWhile isPySpace).reverse.dropWhile isPySpace).reverse)

/-- One extracted text unit, from the dataclass `TextSegment` in
`src/epub.py`.  The `element` back-reference of the dataclass is realised
functionally: reinjection returns the rebuilt child list for each segment
(see `injectTranslations`). -/
structure Segment where
  index : Nat
  original_text : String
  translated_text : Option String := none
deriving DecidableEq

/-- Loop body of `chunk_segments` (`src/epub.py` lines 185-201): greedy
accumulation with running size, closing the current chunk when it is
non-empty and adding the next segment would exceed `max_chars`. -/
def chunkGo (maxChars : Nat) : List Segment → List Segment → Nat → List (List Segment)
  | [], cur, _ => if cur = [] then [] else [cur]
  | seg :: rest, cur, size =>
    let segLen := seg.original_text.length
    if cur ≠ [] ∧ size + segLen > maxChars then
      cur :: chunkGo maxChars rest [seg] segLen
    else
      chunkGo maxChars rest (cur ++ [seg]) (size + segLen)

/-- Model of `chunk_segments(segments, max_chars)` from `src/epub.py`. -/
def chunk_segments (segments : List Segment) (maxChars : Nat) : List (List Segment) :=
  chunkGo maxChars segments [] 0

theorem chunkGo_join (maxChars : Nat) :
    ∀ (rest cur : List Segment) (size : Nat),
      (chunkGo maxChars rest cur size).flatten = cur ++ rest := by
  intro rest
  induction rest with
  | nil =>
    intro cur size
    by_cases h : cur = [] <;> simp [chunkGo, h]
  | cons seg rest ih =>
    intro cur size
    by_cases h : cur ≠ [] ∧ size + seg.original_text.length > maxChars
    · simp [chunkGo, h, ih]
    · simp [chunkGo, h, ih]

theorem chunkGo_ne_nil (maxChars : Nat) :
    ∀ (rest cur : List Segment) (size : Nat), cur ≠ [] →
      ∀ c ∈ chunkGo maxChars rest cur size, c ≠ [] := by
  intro rest
  induction rest with
  | nil =>
    intro cur size hcur c hc
    simp only [chunkGo, if_neg hcur] at hc
    simp only [List.mem_singleton] at hc
    subst hc; exact hcur
  | cons seg rest ih =>
    intro cur size hcur c hc
    by_cases h : cur ≠ [] ∧ size + seg.original_text.length > maxChars
    · simp only [chunkGo, if_pos h] at hc
      rcases List.mem_cons.mp hc with h1 | h2
      · subst h1; exact hcur
      · exact ih [seg] seg.original_text.length (by simp) c h2
    · simp only [chunkGo, if_neg h] at hc
      exact ih (cur ++ [seg]) _ (by simp) c hc

theorem chunkGo_ne_nil_start (maxChars : Nat) :
    ∀ (segs : List Segment), ∀ c ∈ chunkGo maxChars segs [] 0, c ≠ [] := by
  intro segs c hc
  cases segs with
  | nil => simp [chunkGo] at hc
  | cons seg rest =>
    simp only [chunkGo] at hc
    have hfalse : ¬(([] : List Segment) ≠ [] ∧ 0 + seg.original_text.length > maxChars) := by
      simp
    rw [if_neg hfalse] at hc
    exact chunkGo_ne_nil maxChars rest [seg] _ (by simp) c hc

/-- C2: for every segment list and `max_chars > 0`, concatenating the chunks
produced by `chunk_segments` in order reproduces the original segment list
exactly, and every produced chunk is non-empty. -/
theorem chunk_segments_complete (segments : List Segment) (maxChars : Nat)
    (hpos : 0 < maxChars) :
    (chunk_segments segments maxChars).flatten = segments ∧
      ∀ c ∈ chunk_segments segments maxChars, c ≠ [] := by
  constructor
  · simpa using chunkGo_join maxChars segments [] 0
  · exact chunkGo_ne_nil_start maxChars segments

theorem chunk_segments_complete_witness :
    (0 : Nat) < 3 ∧
      (chunk_segments [⟨0, "ab", none⟩, ⟨1, "cd", none⟩, ⟨2, "e", none⟩] 3).flatten =
        [⟨0, "ab", none⟩, ⟨1, "cd", none⟩, ⟨2, "e", none⟩] :=
  ⟨by decide, (chunk_segments_complete [⟨0, "ab", none⟩, ⟨1, "cd", none⟩, ⟨2, "e", none⟩] 3
    (by decide)).1⟩

/-- Sum of the source-text lengths of a chunk (the running `current_size`). -/
def chunkSize (c : List Segment) : Nat :=
  (c.map (fun s => s.original_text.length)).sum

theorem chunkGo_oversized (maxChars : Nat) :
    ∀ (rest cur : List Segment) (size : Nat),
      size = chunkSize cur →
      (∀ s ∈ cur, maxChars < s.original_text.length → cur = [s]) →
      ∀ c ∈ chunkGo maxChars rest cur size,
        ∀ s ∈ c, maxChars < s.original_text.length → c = [s] := by
  intro rest
  induction rest with
  | nil =>
    intro cur size hsize hcur c hc
    by_cases h : cur = []
    · simp [chunkGo, h] at hc
    · simp only [chunkGo, if_neg h, List.mem_singleton] at hc
      subst hc; exact hcur
  | cons seg rest ih =>
    intro cur size hsize hcur c hc
    by_cases h : cur ≠ [] ∧ size + seg.original_text.length > maxChars
    · simp only [chunkGo, if_pos h] at hc
      rcases List.mem_cons.mp hc with h1 | h2
      · subst h1; exact hcur
      · refine ih [seg] _ (by simp [chunkSize]) ?_ c h2
        intro s hs _
        simp only [List.mem_singleton] at hs
        simp [hs]
    · simp only [chunkGo, if_neg h] at hc
      refine ih (cur ++ [seg]) _ (by simp [chunkSize, hsize]) ?_ c hc
      push_neg at h
      intro s hs hbig
      by_cases hcur0 : cur = []
      · subst hcur0
        simp only [List.nil_append, List.mem_singleton] at hs
        simp [hs]
      · have hle := h hcur0
        exfalso
        have hmem : s.original_text.length ≤ size + seg.original_text.length := by
          rcases List.mem_append.mp hs with h1 | h2
          · have : s.original_text.length ≤ chunkSize cur := by
              have := List.le_sum_of_mem (List.mem_map_of_mem (fun s => s.original_text.length) h1)
              simpa [chunkSize] using this
            omega
          · simp only [List.mem_singleton] at h2
            subst h2; omega
        omega

/-- C5: for every segment list and `max_chars > 0`, a segment whose source
text length exceeds `max_chars` occupies a chunk of `chunk_segments` by
itself: it is never grouped with another segment (and, by C2, never
dropped, split or truncated). -/
theorem chunk_segments_oversized_singleton (segments : List Segment) (maxChars : Nat)
    (hpos : 0 < maxChars) :
    ∀ c ∈ chunk_segments segments maxChars,
      ∀ s ∈ c, maxChars < s.original_text.length → c = [s] := by
  exact chunkGo_oversized maxChars segments [] 0 (by simp [chunkSize]) (by simp)

theorem chunk_segments_oversized_singleton_witness :
    (0 : Nat) < 2 ∧
      chunk_segments [⟨0, "a", none⟩, ⟨1, "abcde", none⟩, ⟨2, "b", none⟩] 2 =
        [[⟨0, "a", none⟩], [⟨1, "abcde", none⟩], [⟨2, "b", none⟩]] ∧
      ([⟨1, "abcde", none⟩] : List Segment) = [⟨1, "abcde", none⟩] :=
  ⟨by decide, by decide,
    chunk_segments_oversized_singleton [⟨0, "a", none⟩, ⟨1, "abcde", none⟩, ⟨2, "b", none⟩] 2
      (by decide) [⟨1, "abcde", none⟩] (by decide) ⟨1, "abcde", none⟩ (by decide) (by decide)⟩

theorem chunkGo_budget (maxChars : Nat) :
    ∀ (rest cur : List Segment) (size : Nat),
      size = chunkSize cur →
      (2 ≤ cur.length → size ≤ maxChars) →
      ∀ c ∈ chunkGo maxChars rest cur size,
        2 ≤ c.length → chunkSize c ≤ maxChars := by
  intro rest
  induction rest with
  | nil =>
    intro cur size hsize hcur c hc
    by_cases h : cur = []
    · simp [chunkGo, h] at hc
    · simp only [chunkGo, if_neg h, List.mem_singleton] at hc
      subst hc
      intro hlen
      exact hsize ▸ hcur hlen
  | cons seg rest ih =>
    intro cur size hsize hcur c hc
    by_cases h : cur ≠ [] ∧ size + seg.original_text.length > maxChars
    · simp only [chunkGo, if_pos h] at hc
      rcases List.mem_cons.mp hc with h1 | h2
      · subst h1
        intro hlen
        exact hsize ▸ hcur hlen
      · refine ih [seg] _ (by simp [chunkSize]) (by simp) c h2
    · simp only [chunkGo, if_neg h] at hc
      push_neg at h
      refine ih (cur ++ [seg]) _ (by simp [chunkSize, hsize]) ?_ c hc
      intro hlen
      by_cases hcur0 : cur = []
      · subst hcur0; simp at hlen
      · have := h hcur0
        have : chunkSize (cur ++ [seg]) = size + seg.original_text.length := by
          simp [chunkSize, hsize]
        omega

/-- C6: every chunk produced by `chunk_segments` that contains two or more
segments has total source character length at most `max_chars`; only a
singleton chunk may exceed the budget. -/
theorem chunk_segments_budget (segments : List Segment) (maxChars : Nat) :
    ∀ c ∈ chunk_segments segments maxChars, 2 ≤ c.length → chunkSize c ≤ maxChars := by
  exact chunkGo_budget maxChars segments [] 0 (by simp [chunkSize]) (by simp)

theorem chunk_segments_budget_witness :
    ([⟨0, "ab", none⟩, ⟨1, "cd", none⟩] : List Segment) ∈
        chunk_segments [⟨0, "ab", none⟩, ⟨1, "cd", none⟩, ⟨2, "xyz", none⟩] 4 ∧
      2 ≤ ([⟨0, "ab", none⟩, ⟨1, "cd", none⟩] : List Segment).length ∧
      chunkSize [⟨0, "ab", none⟩, ⟨1, "cd", none⟩] ≤ 4 :=
  ⟨by decide, by decide,
    chunk_segments_budget [⟨0, "ab", none⟩, ⟨1, "cd", none⟩, ⟨2, "xyz", none⟩] 4
      [⟨0, "ab", none⟩, ⟨1, "cd", none⟩] (by decide) (by decide)⟩

/-- Splitting a character list on the newline character, keeping empty
pieces, as Python `str.split("\n")` does. -/
def splitNlGo : List Char → List Char → List String
  | [], acc => [String.mk acc.reverse]
  | c :: rest, acc =>
    if c = '\n' then String.mk acc.reverse :: splitNlGo rest []
    else splitNlGo rest (c :: acc)

/-- Model of Python `s.split("\n")`. -/
def pySplitLines (s : String) : List String :=
  splitNlGo s.data []

/-- Numeric value of a decimal digit string, as Python `int` on an
all-digit group. -/
def digitsToNat (ds : List Char) : Nat :=
  ds.foldl (fun a c => a * 10 + (c.toNat - 48)) 0

/-- Model of the anchored regex match `^\[(\d+)\]\s*(.*)$` used by
`parse_translated_chunk`: on success returns the parsed index (group 1 via
`int`) and the rest of the line after the greedy `\s*` (group 2). -/
def parseMarkerLine (l : String) : Option (Nat × String) :=
  match l.data with
  | c :: rest =>
    if c = '[' then
      let ds := rest.takeWhile Char.isDigit
      if ds = [] then none
      else
        match rest.dropWhile Char.isDigit with
        | d :: rest2 =>
          if d = ']' then some (digitsToNat ds, String.mk (rest2.dropWhile isPySpace))
          else none
        | [] => none
    else none
  | [] => none

/-- Insert-or-overwrite on an association list, the semantics of Python
`dict` assignment `d[k] = v` (an existing key keeps its position). -/
def dictInsert (d : List (Nat × String)) (k : Nat) (v : String) : List (Nat × String) :=
  if d.any (fun kv => kv.1 = k) then
    d.map (fun kv => if kv.1 = k then (k, v) else kv)
  else d ++ [(k, v)]

/-- Python `k in d` on the modelled dict. -/
def containsKey (d : List (Nat × String)) (k : Nat) : Bool :=
  d.any (fun kv => kv.1 = k)

/-- Python `d.get(k, default)` on the modelled dict. -/
def dictGet (d : List (Nat × String)) (k : Nat) (dflt : String) : String :=
  match d.find? (fun kv => kv.1 = k) with
  | some kv => kv.2
  | none => dflt

/-- A Python dict built from a sequence of key-value assignments. -/
def pyDict (pairs : List (Nat × String)) : List (Nat × String) :=
  pairs.foldl (fun d kv => dictInsert d kv.1 kv.2) []

/-- Python `"\n".join(lines)`. -/
def joinNl : List String → String
  | [] => ""
  | [x] => x
  | x :: rest => x ++ "\n" ++ joinNl rest

/-- The marker-scanning loop of `parse_translated_chunk` (`src/epub.py`
lines 234-249): a marker line starts a new accumulation, non-marker lines
append to the current one, and each finished accumulation is stored
newline-joined and stripped. -/
def markerLoopGo : List String → Option Nat → List String → List (Nat × String) →
    List (Nat × String)
  | [], cur, acc, result =>
    match cur with
    | some i => dictInsert result i (pyStrip (joinNl acc))
    | none => result
  | l :: rest, cur, acc, result =>
    match parseMarkerLine l with
    | some (idx, g2) =>
      let result1 :=
        match cur with
        | some i => dictInsert result i (pyStrip (joinNl acc))
        | none => result
      markerLoopGo rest (some idx) [g2] result1
    | none =>
      match cur with
      | some _ => markerLoopGo rest cur (acc ++ [l]) result
      | none => markerLoopGo rest cur acc result

/-- The raw `[index]`-marker mapping recovered from the translator output
(the `result` dict right before the superset test). -/
def markerParseResult (translated : String) : List (Nat × String) :=
  markerLoopGo (pySplitLines (pyStrip translated)) none [] []

/-- The chunk's expected segment indices (`expected_indices`, as a list;
the Python set is modelled by membership). -/
def expectedIndices (chunk : List Segment) : List Nat :=
  chunk.map (fun s => s.index)

/-- The superset test `result.keys() >= expected_indices`. -/
def markerCover (translated : String) (chunk : List Segment) : Bool :=
  (expectedIndices chunk).all (fun k => containsKey (markerParseResult translated) k)

/-- Tier 1 result: the marker mapping restricted to the expected indices. -/
def tier1Restrict (translated : String) (chunk : List Segment) : List (Nat × String) :=
  (markerParseResult translated).filter (fun kv => (expectedIndices chunk).contains kv.1)

/-- The `cleaned_lines` of the line-count fallback: every line with its
marker prefix stripped when present. -/
def cleanedLines (translated : String) : List String :=
  (pySplitLines (pyStrip translated)).map
    (fun l =>
      match parseMarkerLine l with
      | some p => p.2
      | none => l)

/-- The non-empty cleaned lines (`non_empty` in the source). -/
def nonEmptyCleaned (translated : String) : List String :=
  (cleanedLines translated).filter (fun l => pyStrip l ≠ "")

/-- Tier 2 result: zip the chunk's segments with the non-empty cleaned
lines in order. -/
def tier2LineMap (translated : String) (chunk : List Segment) : List (Nat × String) :=
  pyDict ((chunk.zip (nonEmptyCleaned translated)).map
    (fun p => (p.1.index, pyStrip p.2)))

/-- Python slice `s[a:b]` on a string with non-negative bounds. -/
def pySlice (s : String) (a b : Nat) : String :=
  String.mk ((s.data.drop a).take (b - a))

/-- The proportional-assignment loop of tier 3 (`for i, seg in
enumerate(chunk)` with contiguous character slices, the final segment
absorbing the remainder). -/
def propPairs (fullText : String) (n avgLen : Nat) : List Segment → Nat → List (Nat × String)
  | [], _ => []
  | seg :: rest, i =>
    (seg.index,
      pyStrip (pySlice fullText (i * avgLen)
        (if i < n - 1 then (i + 1) * avgLen else fullText.length))) ::
      propPairs fullText n avgLen rest (i + 1)

/-- Tier 3 result: the whole (stripped) output divided evenly by segment
count. -/
def tier3Proportional (translated : String) (chunk : List Segment) : List (Nat × String) :=
  let fullText := pyStrip translated
  let n := chunk.length
  let avgLen := if n ≠ 0 then fullText.length / n else 1
  pyDict (propPairs fullText n avgLen chunk 0)

/-- Model of `parse_translated_chunk(translated_text, chunk)` from
`src/epub.py` lines 217-276: marker parse, then line-count fallback, then
proportional fallback, in strict priority order. -/
def parse_translated_chunk (translated : String) (chunk : List Segment) :
    List (Nat × String) :=
  if markerCover translated chunk then tier1Restrict translated chunk
  else if (nonEmptyCleaned translated).length = chunk.length then
    tier2LineMap translated chunk
  else tier3Proportional translated chunk

/-- The key list of a modelled dict. -/
def dictKeys (d : List (Nat × String)) : List Nat :=
  d.map (fun kv => kv.1)

theorem dictKeys_dictInsert (d : List (Nat × String)) (k : Nat) (v : String) (k' : Nat) :
    k' ∈ dictKeys (dictInsert d k v) ↔ k' = k ∨ k' ∈ dictKeys d := by
  by_cases h : d.any (fun kv => kv.1 = k)
  · have hmem : k ∈ dictKeys d := by
      rcases List.any_eq_true.mp h with ⟨kv, hkv, he⟩
      simp only [decide_eq_true_eq] at he
      exact he ▸ List.mem_map_of_mem _ hkv
    have hkeys : dictKeys (dictInsert d k v) = dictKeys d := by
      simp only [dictInsert, if_pos h, dictKeys, List.map_map]
      apply List.map_congr_left
      intro kv _
      by_cases hk : kv.1 = k <;> simp [hk]
    rw [hkeys]
    constructor
    · exact Or.inr
    · rintro (rfl | h2)
      · exact hmem
      · exact h2
  · simp only [dictInsert, if_neg h, dictKeys, List.map_append, List.mem_append,
      List.map_cons, List.map_nil, List.mem_singleton]
    tauto

theorem dictKeys_foldl_dictInsert (pairs : List (Nat × String)) :
    ∀ (init : List (Nat × String)) (k : Nat),
      (k ∈ dictKeys (pairs.foldl (fun d kv => dictInsert d kv.1 kv.2) init) ↔
        k ∈ dictKeys init ∨ k ∈ pairs.map (fun kv => kv.1)) := by
  induction pairs with
  | nil => intro init k; simp
  | cons kv pairs ih =>
    intro init k
    simp only [List.foldl_cons, List.map_cons, List.mem_cons]
    rw [ih, dictKeys_dictInsert]
    tauto

theorem dictKeys_pyDict (pairs : List (Nat × String)) (k : Nat) :
    k ∈ dictKeys (pyDict pairs) ↔ k ∈ pairs.map (fun kv => kv.1) := by
  unfold pyDict
  rw [dictKeys_foldl_dictInsert]
  simp [dictKeys]

theorem dictKeys_filter_keydep (d : List (Nat × String)) (p : Nat → Bool) (k : Nat) :
    k ∈ dictKeys (d.filter (fun kv => p kv.1)) ↔ k ∈ dictKeys d ∧ p k = true := by
  simp only [dictKeys, List.mem_map, List.mem_filter]
  constructor
  · rintro ⟨kv, ⟨hm, hp⟩, rfl⟩
    exact ⟨⟨kv, hm, rfl⟩, hp⟩
  · rintro ⟨⟨kv, hm, rfl⟩, hp⟩
    exact ⟨kv, ⟨hm, hp⟩, rfl⟩

theorem listContains_iff (l : List Nat) (k : Nat) : l.contains k = true ↔ k ∈ l :=
  List.elem_iff

theorem containsKey_iff_mem_dictKeys (d : List (Nat × String)) (k : Nat) :
    containsKey d k = true ↔ k ∈ dictKeys d := by
  simp only [containsKey, List.any_eq_true, decide_eq_true_eq, dictKeys, List.mem_map]

theorem propPairs_fst (fullText : String) (n avgLen : Nat) :
    ∀ (segs : List Segment) (i : Nat),
      (propPairs fullText n avgLen segs i).map (fun kv => kv.1) =
        segs.map (fun s => s.index) := by
  intro segs
  induction segs with
  | nil => intro i; simp [propPairs]
  | cons seg rest ih => intro i; simp [propPairs, ih]

/-- C1: for every chunk and every output string (including the empty string
and arbitrary malformed text), the mapping returned by
`parse_translated_chunk` has key set exactly the chunk's segment index set;
no segment is left unmapped.  The Lean model is a total function, matching
the source, which raises on no input. -/
theorem parse_translated_chunk_total_coverage (translated : String)
    (chunk : List Segment) (k : Nat) :
    k ∈ dictKeys (parse_translated_chunk translated chunk) ↔
      k ∈ expectedIndices chunk := by
  unfold parse_translated_chunk
  by_cases hcov : markerCover translated chunk
  · rw [if_pos hcov]
    unfold tier1Restrict
    rw [dictKeys_filter_keydep]
    constructor
    · rintro ⟨_, hk⟩
      exact (listContains_iff _ _).mp hk
    · intro hk
      refine ⟨?_, (listContains_iff _ _).mpr hk⟩
      have := (List.all_eq_true.mp hcov) k hk
      exact (containsKey_iff_mem_dictKeys _ k).mp this
  · rw [if_neg hcov]
    by_cases hlen : (nonEmptyCleaned translated).length = chunk.length
    · rw [if_pos hlen]
      unfold tier2LineMap
      rw [dictKeys_pyDict]
      have hfst : ((chunk.zip (nonEmptyCleaned translated)).map
          (fun p => (p.1.index, pyStrip p.2))).map (fun kv => kv.1) =
          chunk.map (fun s => s.index) := by
        rw [List.map_map]
        have : ((chunk.zip (nonEmptyCleaned translated)).map
            (fun p => p.1)).map (fun s => s.index) =
            chunk.map (fun s => s.index) := by
          rw [List.map_fst_zip chunk (nonEmptyCleaned translated) (by omega)]
        rw [← this, List.map_map]
        rfl
      rw [hfst]
      rfl
    · rw [if_neg hlen]
      unfold tier3Proportional
      rw [dictKeys_pyDict, propPairs_fst]
      rfl

/-- C7: the three decoding strategies are applied in strict priority
order.  If the raw marker mapping covers every expected index, the result
is exactly its restriction to the expected indices (extra and out-of-range
indices discarded, the fallbacks never consulted); otherwise, if the
non-empty cleaned line count equals the segment count, the result is the
positional line mapping; otherwise it is the proportional division. -/
theorem parse_translated_chunk_tier_priority (translated : String)
    (chunk : List Segment) :
    (markerCover translated chunk = true →
      parse_translated_chunk translated chunk = tier1Restrict translated chunk ∧
        ∀ kv ∈ parse_translated_chunk translated chunk,
          kv.1 ∈ expectedIndices chunk) ∧
    (markerCover translated chunk = false →
      (nonEmptyCleaned translated).length = chunk.length →
      parse_translated_chunk translated chunk = tier2LineMap translated chunk) ∧
    (markerCover translated chunk = false →
      (nonEmptyCleaned translated).length ≠ chunk.length →
      parse_translated_chunk translated chunk = tier3Proportional translated chunk) := by
  refine ⟨?_, ?_, ?_⟩
  · intro hcov
    have he : parse_translated_chunk translated chunk = tier1Restrict translated chunk := by
      unfold parse_translated_chunk
      rw [if_pos hcov]
    refine ⟨he, ?_⟩
    intro kv hkv
    rw [he] at hkv
    unfold tier1Restrict at hkv
    have := List.of_mem_filter hkv
    exact (listContains_iff _ _).mp (by simpa using this)
  · intro hcov hlen
    unfold parse_translated_chunk
    rw [if_neg (by simp [hcov]), if_pos hlen]
  · intro hcov hlen
    unfold parse_translated_chunk
    rw [if_neg (by simp [hcov]), if_neg hlen]

theorem parse_translated_chunk_tier_priority_witness :
    markerCover "[0] hi\nextra" [⟨0, "src", none⟩] = true ∧
      parse_translated_chunk "[0] hi\nextra" [⟨0, "src", none⟩] =
        tier1Restrict "[0] hi\nextra" [⟨0, "src", none⟩] :=
  ⟨by decide,
    ((parse_translated_chunk_tier_priority "[0] hi\nextra" [⟨0, "src", none⟩]).1
      (by decide)).1⟩

mutual
/-- A `bs4` element: a text node (`NavigableString`) or a tag with the
attributes the pipeline reads and writes (`href` and `id`, with the empty
string meaning absent, and the multi-valued `class` list; the XML parser is
configured with `class` multi-valued).  Children are ordered. -/
inductive PNode where
  | text (s : String)
  | tag (name href idAttr : String) (classes : List String) (children : PNodeList)
deriving DecidableEq
/-- An ordered list of sibling nodes (a separate inductive so that all
functions and proofs can use structural mutual recursion). -/
inductive PNodeList where
  | nil
  | cons (head : PNode) (tail : PNodeList)
deriving DecidableEq
end

/-- Conversion helper for writing concrete trees. -/
def nodesOf : List PNode → PNodeList
  | [] => .nil
  | n :: rest => .cons n (nodesOf rest)

mutual
/-- The visible text of one node, as `bs4` `get_text()`. -/
def PNode.getText : PNode → String
  | .text s => s
  | .tag _ _ _ _ cs => cs.getText
/-- The visible text of a node list, concatenated in order. -/
def PNodeList.getText : PNodeList → String
  | .nil => ""
  | .cons n rest => n.getText ++ rest.getText
end

/-- The UTF-8 bytes of one unicode scalar value. -/
def utf8Bytes (c : Char) : List Nat :=
  let n := c.toNat
  if n < 0x80 then [n]
  else if n < 0x800 then [0xC0 + n / 64, 0x80 + n % 64]
  else if n < 0x10000 then [0xE0 + n / 4096, 0x80 + (n / 64) % 64, 0x80 + n % 64]
  else [0xF0 + n / 262144, 0x80 + (n / 4096) % 64, 0x80 + (n / 64) % 64, 0x80 + n % 64]

/-- The UTF-8 byte sequence of a string. -/
def utf8EncodeStr (s : String) : List Nat :=
  (s.data.map utf8Bytes).flatten

/-- UTF-8 decoding step, fuel-based (one unit per decoded character).
The decoder is specified on well-formed byte sequences, the outputs of
`utf8EncodeStr`; continuation bytes are read positionally. -/
def utf8DecodeGo : Nat → List Nat → List Char
  | 0, _ => []
  | fuel + 1, bytes =>
    match bytes with
    | [] => []
    | b0 :: rest =>
      if b0 < 0x80 then Char.ofNat b0 :: utf8DecodeGo fuel rest
      else if b0 < 0xE0 then
        Char.ofNat ((b0 - 0xC0) * 64 + (rest.headD 0 - 0x80)) ::
          utf8DecodeGo fuel (rest.drop 1)
      else if b0 < 0xF0 then
        Char.ofNat ((b0 - 0xE0) * 4096 + (rest.headD 0 - 0x80) * 64 +
          ((rest.drop 1).headD 0 - 0x80)) :: utf8DecodeGo fuel (rest.drop 2)
      else
        Char.ofNat ((b0 - 0xF0) * 262144 + (rest.headD 0 - 0x80) * 4096 +
          ((rest.drop 1).headD 0 - 0x80) * 64 + ((rest.drop 2).headD 0 - 0x80)) ::
          utf8DecodeGo fuel (rest.drop 3)

/-- UTF-8 decoding of a byte sequence. -/
def utf8Decode (bytes : List Nat) : List Char :=
  utf8DecodeGo bytes.length bytes

/-- Uppercase hexadecimal digit characters, as produced by Python
`urllib.parse.quote`. -/
def hexDigitChar (d : Nat) : Char :=
  "0123456789ABCDEF".data.getD d '0'

/-- The bytes `quote(value, safe="")` leaves unescaped: ASCII alphanumerics
and `_ . - ~`. -/
def isUnreservedByte (b : Nat) : Bool :=
  (48 ≤ b && b ≤ 57) || (65 ≤ b && b ≤ 90) || (97 ≤ b && b ≤ 122) ||
    b = 45 || b = 46 || b = 95 || b = 126

/-- Percent-encoding of one byte. -/
def quoteByteChars (b : Nat) : List Char :=
  if isUnreservedByte b then [Char.ofNat b]
  else ['%', hexDigitChar (b / 16 % 16), hexDigitChar (b % 16)]

/-- Model of `_encode_marker_value`, that is Python
`urllib.parse.quote(value, safe="")`: percent-encode every non-unreserved
UTF-8 byte, uppercase hex. -/
def pyQuote (s : String) : String :=
  String.mk ((utf8EncodeStr s).map quoteByteChars).flatten

/-- Hexadecimal digit value (both cases, as accepted by `unquote`). -/
def hexVal (c : Char) : Option Nat :=
  if '0' ≤ c ∧ c ≤ '9' then some (c.toNat - 48)
  else if 'A' ≤ c ∧ c ≤ 'F' then some (c.toNat - 55)
  else if 'a' ≤ c ∧ c ≤ 'f' then some (c.toNat - 87)
  else none

/-- Byte sequence recovered from a percent-encoded string: `%XY` with two
hex digits becomes one byte, any other character contributes its UTF-8
bytes (a bare `%` stays literal, as in Python `unquote`).  Fuel-based so
the recursion is structural; one unit of fuel is spent per step and each
step consumes at least one character. -/
def unquoteBytesGo : Nat → List Char → List Nat
  | 0, _ => []
  | _, [] => []
  | fuel + 1, c :: rest =>
    if c = '%' then
      match rest with
      | h1 :: h2 :: rest2 =>
        match hexVal h1, hexVal h2 with
        | some a, some b => (16 * a + b) :: unquoteBytesGo fuel rest2
        | _, _ => 37 :: unquoteBytesGo fuel rest
      | _ => 37 :: unquoteBytesGo fuel rest
    else utf8Bytes c ++ unquoteBytesGo fuel rest

/-- The bytes of a percent-encoded string. -/
def unquoteBytes (cs : List Char) : List Nat :=
  unquoteBytesGo cs.length cs

/-- Model of `_decode_marker_value`, that is Python `unquote`. -/
def pyUnquote (s : String) : String :=
  String.mk (utf8Decode (unquoteBytes s.data))

/-- Python `" ".join(parts)`. -/
def joinSpace : List String → String
  | [] => ""
  | [x] => x
  | x :: rest => x ++ " " ++ joinSpace rest

/-- Loop of Python `str.split()` with no argument: split on whitespace
runs, dropping empty pieces. -/
def splitWsGo : List Char → List Char → List String
  | [], acc => if acc = [] then [] else [String.mk acc.reverse]
  | c :: rest, acc =>
    if isPySpace c then
      if acc = [] then splitWsGo rest []
      else String.mk acc.reverse :: splitWsGo rest []
    else splitWsGo rest (c :: acc)

/-- Model of Python `str.split()` (no separator). -/
def pySplitWs (s : String) : List String :=
  splitWsGo s.data []

/-- The block-level tags `_BLOCK_TAGS` of `src/epub.py`. -/
def blockTagsList : List String :=
  ["p", "h1", "h2", "h3", "h4", "h5", "h6", "blockquote", "li"]

/-- Membership in `_BLOCK_TAGS`. -/
def isBlockTag (nm : String) : Bool :=
  blockTagsList.contains nm

/-- The inline classes `_PRESERVE_INLINE_CLASSES` of `src/epub.py`. -/
def preserveInlineClasses : List String :=
  ["em-sesame", "bold", "italic"]

/-- The packed attribute payload of a hyperlink marker, `href`, `id`,
`class` (space-joined) and inner text, percent-encoded and joined with the
separator `||` (`_INLINE_ATTR_SEP`). -/
def linkMarkerPayload (href aid : String) (cls : List String) (children : PNodeList) : String :=
  "href=" ++ pyQuote href ++ "||id=" ++ pyQuote aid ++ "||class=" ++
    pyQuote (joinSpace cls) ++ "||text=" ++ pyQuote children.getText

/-- Contribution of one child to `_extract_text_with_inline_markers`:
text passes through, `a` children become `<<a:payload>>` markers, children
carrying a preserve class become `<<class:text>>` markers, anything else
contributes its visible text.  The Python picks an arbitrary element of
the (at most singleton in canonical documents) intersection with the
preserve set; the model picks the first class in list order. -/
def extractChildText : PNode → String
  | .text s => s
  | .tag nm href aid cls children =>
    if nm = "a" then "<<a:" ++ linkMarkerPayload href aid cls children ++ ">>"
    else
      match (cls.filter (fun c => preserveInlineClasses.contains c)).head? with
      | some cn => "<<" ++ cn ++ ":" ++ children.getText ++ ">>"
      | none => children.getText

/-- Model of `_extract_text_with_inline_markers` over the children of a
block element. -/
def extractInline : PNodeList → String
  | .nil => ""
  | .cons n rest => extractChildText n ++ extractInline rest

mutual
/-- Whether a node is a block tag or has a block-tagged descendant. -/
def nodeHasBlockTag : PNode → Bool
  | .text _ => false
  | .tag nm _ _ _ cs => isBlockTag nm || forestHasBlockTag cs
/-- Whether a forest contains a block-tagged node at any depth; applied to
the children of an element this is `_has_nested_block`. -/
def forestHasBlockTag : PNodeList → Bool
  | .nil => false
  | .cons n rest => nodeHasBlockTag n || forestHasBlockTag rest
end

/-- Decimal digit list of a natural number (fuel-based so every use
reduces definitionally). -/
def natToStringGo : Nat → Nat → List Char
  | 0, _ => []
  | fuel + 1, n =>
    if n < 10 then [hexDigitChar n]
    else natToStringGo fuel (n / 10) ++ [hexDigitChar (n % 10)]

/-- Decimal rendering of a natural number, Python `str(index)`. -/
def natToString (n : Nat) : String :=
  String.mk (natToStringGo (n + 1) n)

/-- The placeholder written into a cleared block element,
`f"{{SEG:{index}}}"` in the source (literal braces). -/
def segPlaceholder (i : Nat) : String :=
  "\x7b\x7bSEG:" ++ natToString i ++ "\x7d\x7d"

/-- Recogniser for a text node that is exactly a placeholder
(`\x7b\x7bSEG:<digits>\x7d\x7d`), returning the embedded index. -/
def parsePlaceholder (s : String) : Option Nat :=
  if s.data.take 6 = "\x7b\x7bSEG:".data then
    let r := s.data.drop 6
    let ds := r.takeWhile Char.isDigit
    if ds ≠ [] ∧ r.dropWhile Char.isDigit = ['\x7d', '\x7d'] then some (digitsToNat ds)
    else none
  else none

mutual
/-- Extraction step on one node of the pre-order walk of
`extract_segments` (`src/epub.py` lines 150-167): a minimal block (block
tag, no nested block) with non-empty stripped text becomes a segment and
its children are replaced by the placeholder text; a minimal block with
empty text is skipped untouched; any other node keeps its structure while
its children are processed. -/
def extractNodeE : PNode → Nat → PNode × List Segment × Nat
  | .text s, i => (.text s, [], i)
  | .tag nm href aid cls cs, i =>
    if isBlockTag nm && !forestHasBlockTag cs then
      let t := pyStrip (extractInline cs)
      if t = "" then (.tag nm href aid cls cs, [], i)
      else
        (.tag nm href aid cls (.cons (.text (segPlaceholder i)) .nil),
          [⟨i, t, none⟩], i + 1)
    else
      let r := extractForestE cs i
      (.tag nm href aid cls r.1, r.2.1, r.2.2)
/-- Extraction over a forest of siblings, threading the running index. -/
def extractForestE : PNodeList → Nat → PNodeList × List Segment × Nat
  | .nil, i => (.nil, [], i)
  | .cons n rest, i =>
    let rn := extractNodeE n i
    let rr := extractForestE rest rn.2.2
    (.cons rn.1 rr.1, rn.2.1 ++ rr.2.1, rr.2.2)
end

/-- Model of `extract_segments(body)`: returns the skeleton (the mutated
body children) and the segment list. -/
def extract_segments (body : PNodeList) : PNodeList × List Segment :=
  let r := extractForestE body 0
  (r.1, r.2.1)

mutual
/-- Specification-side characterisation (from the spec wording of C3): the
stripped texts of the minimal translatable blocks, in pre-order, keeping
only the non-empty ones. -/
def minimalBlockTextsNode : PNode → List String
  | .text _ => []
  | .tag nm _ _ _ cs =>
    if isBlockTag nm && !forestHasBlockTag cs then
      (let t := pyStrip (extractInline cs); if t = "" then [] else [t])
    else minimalBlockTextsForest cs
/-- Pre-order list of minimal-block stripped texts of a forest. -/
def minimalBlockTextsForest : PNodeList → List String
  | .nil => []
  | .cons n rest => minimalBlockTextsNode n ++ minimalBlockTextsForest rest
end

mutual
/-- Specification-side characterisation: the indices of all
placeholder-formatted text nodes below a node, in pre-order. -/
def placeholderIndicesNode : PNode → List Nat
  | .text s =>
    match parsePlaceholder s with
    | some i => [i]
    | none => []
  | .tag _ _ _ _ cs => placeholderIndicesForest cs
/-- Pre-order list of placeholder indices of a forest. -/
def placeholderIndicesForest : PNodeList → List Nat
  | .nil => []
  | .cons n rest => placeholderIndicesNode n ++ placeholderIndicesForest rest
end

theorem hexDigitChar_decimal (d : Nat) (h : d < 10) :
    Char.isDigit (hexDigitChar d) = true ∧ (hexDigitChar d).toNat - 48 = d := by
  interval_cases d <;> exact ⟨by decide, by decide⟩

theorem takeWhile_all_append (p : Char → Bool) (l : List Char) (d : Char) (r : List Char)
    (hl : ∀ c ∈ l, p c = true) (hd : p d = false) :
    (l ++ d :: r).takeWhile p = l ∧ (l ++ d :: r).dropWhile p = d :: r := by
  induction l with
  | nil => simp [List.takeWhile, List.dropWhile, hd]
  | cons c l ih =>
    have hc : p c = true := hl c (List.mem_cons_self c l)
    have := ih (fun c hmem => hl c (List.mem_cons_of_mem _ hmem))
    simp only [List.cons_append, List.takeWhile_cons, List.dropWhile_cons, hc, if_true]
    exact ⟨by rw [this.1], by rw [this.2]⟩

theorem digitsToNat_append_digit (ds : List Char) (c : Char) :
    digitsToNat (ds ++ [c]) = digitsToNat ds * 10 + (c.toNat - 48) := by
  simp [digitsToNat, List.foldl_append]

theorem natToStringGo_spec :
    ∀ (fuel n : Nat), n < fuel →
      (∀ c ∈ natToStringGo fuel n, Char.isDigit c = true) ∧
        natToStringGo fuel n ≠ [] ∧ digitsToNat (natToStringGo fuel n) = n := by
  intro fuel
  induction fuel with
  | zero => intro n h; omega
  | succ fuel ih =>
    intro n h
    by_cases hn : n < 10
    · have hd := hexDigitChar_decimal n hn
      refine ⟨?_, by simp [natToStringGo, hn], ?_⟩
      · intro c hc
        simp only [natToStringGo, if_pos hn, List.mem_singleton] at hc
        exact hc ▸ hd.1
      · simp [natToStringGo, if_pos hn, digitsToNat, hd.2]
    · have hdiv : n / 10 < fuel := by
        have := Nat.div_lt_self (by omega : 0 < n) (by omega : 1 < 10)
        omega
      have ihd := ih (n / 10) hdiv
      have hd := hexDigitChar_decimal (n % 10) (Nat.mod_lt n (by omega))
      refine ⟨?_, ?_, ?_⟩
      · intro c hc
        simp only [natToStringGo, if_neg hn, List.mem_append, List.mem_singleton] at hc
        rcases hc with h1 | h2
        · exact ihd.1 c h1
        · exact h2 ▸ hd.1
      · simp [natToStringGo, if_neg hn]
      · simp only [natToStringGo, if_neg hn]
        rw [digitsToNat_append_digit, ihd.2.2, hd.2]
        omega

theorem parsePlaceholder_segPlaceholder (i : Nat) :
    parsePlaceholder (segPlaceholder i) = some i := by
  have hspec := natToStringGo_spec (i + 1) i (by omega)
  have hdata : (segPlaceholder i).data =
      "\x7b\x7bSEG:".data ++ natToStringGo (i + 1) i ++ ['\x7d', '\x7d'] := by
    simp only [segPlaceholder, natToString, String.data_append]
  have hnotdig : Char.isDigit '\x7d' = false := by decide
  have htw := takeWhile_all_append Char.isDigit (natToStringGo (i + 1) i) '\x7d' ['\x7d']
    hspec.1 hnotdig
  unfold parsePlaceholder
  rw [hdata]
  have hpfx : ("\x7b\x7bSEG:".data ++ natToStringGo (i + 1) i ++
      ['\x7d', '\x7d']).take 6 = "\x7b\x7bSEG:".data := by
    rw [List.append_assoc]
    have h6 : ("\x7b\x7bSEG:".data).length = 6 := by decide
    rw [← h6, List.take_left]
  have hdrop : ("\x7b\x7bSEG:".data ++ natToStringGo (i + 1) i ++
      ['\x7d', '\x7d']).drop 6 = natToStringGo (i + 1) i ++ ['\x7d', '\x7d'] := by
    rw [List.append_assoc]
    have h6 : ("\x7b\x7bSEG:".data).length = 6 := by decide
    rw [← h6, List.drop_left]
  rw [if_pos hpfx, hdrop]
  rw [if_pos ⟨by rw [htw.1]; exact hspec.2.1, htw.2⟩, htw.1, hspec.2.2]

/-- The statement proved about one extraction step: indices are assigned
densely from the running index, source texts are exactly the non-empty
minimal-block texts, the running index advances by the segment count, and
(for placeholder-free inputs) the placeholders written into the mutated
node are exactly the assigned indices, in order. -/
def NodeExtractSpec (n : PNode) (i : Nat) : Prop :=
  (extractNodeE n i).2.1.map (fun s => s.index) =
      List.range' i (minimalBlockTextsNode n).length ∧
    (extractNodeE n i).2.1.map (fun s => s.original_text) = minimalBlockTextsNode n ∧
    (extractNodeE n i).2.2 = i + (minimalBlockTextsNode n).length ∧
    (placeholderIndicesNode n = [] →
      placeholderIndicesNode (extractNodeE n i).1 =
        List.range' i (minimalBlockTextsNode n).length)

/-- The forest-level analogue of `NodeExtractSpec`. -/
def ForestExtractSpec (ns : PNodeList) (i : Nat) : Prop :=
  (extractForestE ns i).2.1.map (fun s => s.index) =
      List.range' i (minimalBlockTextsForest ns).length ∧
    (extractForestE ns i).2.1.map (fun s => s.original_text) =
      minimalBlockTextsForest ns ∧
    (extractForestE ns i).2.2 = i + (minimalBlockTextsForest ns).length ∧
    (placeholderIndicesForest ns = [] →
      placeholderIndicesForest (extractForestE ns i).1 =
        List.range' i (minimalBlockTextsForest ns).length)

mutual
theorem extractNodeE_spec : ∀ (n : PNode) (i : Nat), NodeExtractSpec n i
  | .text s, i => by
    refine ⟨by simp [extractNodeE, minimalBlockTextsNode], by
      simp [extractNodeE, minimalBlockTextsNode], by
      simp [extractNodeE, minimalBlockTextsNode], ?_⟩
    intro hfresh
    simpa [extractNodeE, minimalBlockTextsNode] using hfresh
  | .tag nm href aid cls cs, i => by
    by_cases hmin : (isBlockTag nm && !forestHasBlockTag cs) = true
    · by_cases ht : pyStrip (extractInline cs) = ""
      · refine ⟨?_, ?_, ?_, ?_⟩ <;>
          simp [extractNodeE, minimalBlockTextsNode, hmin, ht, placeholderIndicesNode]
      · refine ⟨?_, ?_, ?_, ?_⟩
        · simp [extractNodeE, minimalBlockTextsNode, hmin, ht, List.range'_succ]
        · simp [extractNodeE, minimalBlockTextsNode, hmin, ht]
        · simp [extractNodeE, minimalBlockTextsNode, hmin, ht]
        · intro hfresh
          simp [extractNodeE, minimalBlockTextsNode, hmin, ht, placeholderIndicesNode,
            placeholderIndicesForest, parsePlaceholder_segPlaceholder, List.range'_succ]
    · have hf := extractForestE_spec cs i
      unfold NodeExtractSpec
      simp only [extractNodeE, hmin, Bool.false_eq_true, if_false,
        minimalBlockTextsNode, placeholderIndicesNode]
      exact hf
theorem extractForestE_spec : ∀ (ns : PNodeList) (i : Nat), ForestExtractSpec ns i
  | .nil, i => by
    refine ⟨by simp [extractForestE, minimalBlockTextsForest], by
      simp [extractForestE, minimalBlockTextsForest], by
      simp [extractForestE, minimalBlockTextsForest], ?_⟩
    intro _
    simp [extractForestE, minimalBlockTextsForest, placeholderIndicesForest]
  | .cons n rest, i => by
    obtain ⟨hn1, hn2, hn3, hn4⟩ := extractNodeE_spec n i
    obtain ⟨hr1, hr2, hr3, hr4⟩ := extractForestE_spec rest (extractNodeE n i).2.2
    refine ⟨?_, ?_, ?_, ?_⟩
    · simp only [extractForestE, minimalBlockTextsForest, List.map_append,
        List.length_append]
      rw [hn1, hr1, hn3, List.range'_append_1, Nat.add_comm]
    · simp only [extractForestE, minimalBlockTextsForest, List.map_append]
      rw [hn2, hr2]
    · simp only [extractForestE, minimalBlockTextsForest, List.length_append]
      rw [hr3, hn3]
      omega
    · intro hfresh
      simp only [placeholderIndicesForest, List.append_eq_nil] at hfresh
      simp only [extractForestE, placeholderIndicesForest, minimalBlockTextsForest,
        List.length_append]
      rw [hn4 hfresh.1, hr4 hfresh.2, hn3, List.range'_append_1, Nat.add_comm]
end

/-- C3: on any body whose text nodes contain no pre-existing placeholder,
`extract_segments` produces exactly one segment per minimal translatable
block with non-empty stripped text (in pre-order), the indices are dense,
zero-based and assigned in pre-order, and the placeholder indices written
into the skeleton are exactly the segment indices, each exactly once and
in order. -/
theorem extract_segments_coverage (body : PNodeList)
    (hfresh : placeholderIndicesForest body = []) :
    (extract_segments body).2.map (fun s => s.index) =
        List.range (extract_segments body).2.length ∧
      (extract_segments body).2.map (fun s => s.original_text) =
        minimalBlockTextsForest body ∧
      placeholderIndicesForest (extract_segments body).1 =
        List.range (extract_segments body).2.length := by
  have h := extractForestE_spec body 0
  obtain ⟨h1, h2, h3, h4⟩ := h
  have hlen : (extract_segments body).2.length = (minimalBlockTextsForest body).length := by
    have := congrArg List.length h2
    simpa [extract_segments] using this
  refine ⟨?_, ?_, ?_⟩
  · rw [hlen]
    simpa [extract_segments, List.range_eq_range'] using h1
  · simpa [extract_segments] using h2
  · rw [hlen]
    simpa [extract_segments, List.range_eq_range'] using h4 hfresh

theorem extract_segments_coverage_witness :
    placeholderIndicesForest (nodesOf [.tag "div" "" "" []
        (nodesOf [.tag "p" "" "" [] (nodesOf [.text " hello "]),
                  .tag "p" "" "" [] (nodesOf [.tag "br" "" "" [] .nil]),
                  .tag "h1" "" "" [] (nodesOf [.text "title"])])]) = [] ∧
      (extract_segments (nodesOf [.tag "div" "" "" []
        (nodesOf [.tag "p" "" "" [] (nodesOf [.text " hello "]),
                  .tag "p" "" "" [] (nodesOf [.tag "br" "" "" [] .nil]),
                  .tag "h1" "" "" [] (nodesOf [.text "title"])])])).2.map
          (fun s => s.original_text) =
        minimalBlockTextsForest (nodesOf [.tag "div" "" "" []
        (nodesOf [.tag "p" "" "" [] (nodesOf [.text " hello "]),
                  .tag "p" "" "" [] (nodesOf [.tag "br" "" "" [] .nil]),
                  .tag "h1" "" "" [] (nodesOf [.text "title"])])]) :=
  ⟨by decide,
    (extract_segments_coverage (nodesOf [.tag "div" "" "" []
        (nodesOf [.tag "p" "" "" [] (nodesOf [.text " hello "]),
                  .tag "p" "" "" [] (nodesOf [.tag "br" "" "" [] .nil]),
                  .tag "h1" "" "" [] (nodesOf [.text "title"])])]) (by decide)).2.1⟩

/-- Character class `[a-zA-Z0-9_-]` of the inline marker regex
`_INLINE_MARKER_RE`. -/
def nameChar (c : Char) : Bool :=
  ('a' ≤ c && c ≤ 'z') || ('A' ≤ c && c ≤ 'Z') || ('0' ≤ c && c ≤ '9') ||
    c = '_' || c = '-'

/-- Whether a character list starts with the closing delimiter `>>`. -/
def checkGtGt : List Char → Bool
  | a :: b :: _ => a = '>' && b = '>'
  | _ => false

/-- The non-greedy payload match `(.+?)>>`: the shortest non-empty prefix
of characters other than newline that is followed by `>>`; returns the
payload and the characters after the `>>`. -/
def findClose : List Char → Option (List Char × List Char)
  | [] => none
  | c :: rest =>
    if c = '\n' then none
    else if checkGtGt rest then some ([c], rest.drop 2)
    else (findClose rest).map (fun pr => (c :: pr.1, pr.2))

/-- Attempt to match `<<([a-zA-Z0-9_-]+):(.+?)>>` at the start of a
character list; on success returns the name group, the payload group and
the remaining characters. -/
def matchMarkerAt : List Char → Option (List Char × List Char × List Char)
  | c1 :: c2 :: rest =>
    if c1 = '<' && c2 = '<' then
      let nm := rest.takeWhile nameChar
      match rest.dropWhile nameChar with
      | d :: rest3 =>
        if nm ≠ [] ∧ d = ':' then (findClose rest3).map (fun pr => (nm, pr.1, pr.2))
        else none
      | [] => none
    else none
  | _ => none

/-- Left-to-right scan of Python `re.split` with the two-group marker
pattern: at each position try the marker match, emitting the preceding
text and the two groups on success, otherwise advance one character.
Fuel-based (one unit per step) so the recursion is structural. -/
def splitGo : Nat → List Char → List Char → List String
  | 0, acc, _ => [String.mk acc.reverse]
  | fuel + 1, acc, cs =>
    match matchMarkerAt cs with
    | some (nm, pl, rest) =>
      String.mk acc.reverse :: String.mk nm :: String.mk pl :: splitGo fuel [] rest
    | none =>
      match cs with
      | [] => [String.mk acc.reverse]
      | c :: cs2 => splitGo fuel (c :: acc) cs2

/-- Model of `_INLINE_MARKER_RE.split(text)`: the pieces between matches
interleaved with the name and payload groups. -/
def markerSplit (s : String) : List String :=
  splitGo (s.data.length + 1) [] s.data

/-- Whether a character list starts with `|`. -/
def checkPipe : List Char → Bool
  | b :: _ => b = '|'
  | _ => false

/-- Loop of Python `str.split("||")`: non-overlapping left-to-right cuts
at each exact `||` occurrence. -/
def splitPipesGo : Nat → List Char → List Char → List String
  | 0, acc, _ => [String.mk acc.reverse]
  | fuel + 1, acc, cs =>
    match cs with
    | [] => [String.mk acc.reverse]
    | c :: rest =>
      if c = '|' && checkPipe rest then
        String.mk acc.reverse :: splitPipesGo fuel [] (rest.drop 1)
      else splitPipesGo fuel (c :: acc) rest

/-- Model of Python `inner.split("||")` (`_INLINE_ATTR_SEP`). -/
def splitOnPipes (s : String) : List String :=
  splitPipesGo (s.data.length + 1) [] s.data

/-- Python `item.split("=", 1)` guarded by `"=" in item`: the part before
the first `=` and everything after it, or `none` when there is no `=`. -/
def splitEqGo : List Char → List Char → Option (String × String)
  | [], _ => none
  | c :: rest, acc =>
    if c = '=' then some (String.mk acc.reverse, String.mk rest)
    else splitEqGo rest (c :: acc)

/-- First-`=` key-value split of one attribute item. -/
def splitFirstEq (s : String) : Option (String × String) :=
  splitEqGo s.data []

/-- Last-wins lookup, the final value a key holds after the sequential
Python dict assignments. -/
def lookupLast (attrs : List (String × String)) (k : String) : Option String :=
  (attrs.reverse.find? (fun kv => kv.1 = k)).map (fun kv => kv.2)

/-- Reconstruction of one marker during `_inject_translations`
(`src/epub.py` lines 333-361): the name `a` rebuilds a hyperlink from the
percent-decoded packed attributes (each attribute set only when non-empty,
the class string whitespace-split, the text appended only when non-empty);
any other name rebuilds `<span class="name">payload</span>`.  The span
branch models the `html.parser` reparse of that literal for payloads
containing no markup-significant character (`<` or `&`), which are the
only payloads arising below; an empty payload yields an empty span. -/
def buildMarkerNode (nm inner : String) : PNode :=
  if nm = "a" then
    let items := splitOnPipes inner
    let attrs := (items.filterMap splitFirstEq).map (fun kv => (kv.1, pyUnquote kv.2))
    let href := (lookupLast attrs "href").getD ""
    let aid := (lookupLast attrs "id").getD ""
    let clsStr := (lookupLast attrs "class").getD ""
    let txt := (lookupLast attrs "text").getD ""
    PNode.tag "a" href aid (pySplitWs clsStr)
      (if txt = "" then .nil else .cons (.text txt) .nil)
  else
    PNode.tag "span" "" "" [nm] (if inner = "" then .nil else .cons (.text inner) .nil)

/-- The index loop of `_inject_translations` over the split parts: parts
at positions `0 mod 3` are text (appended only when non-empty), positions
`1 mod 3` are marker names whose following part is the payload (empty when
missing). -/
def rebuildParts : List String → PNodeList
  | [] => .nil
  | [pre] => if pre = "" then .nil else .cons (.text pre) .nil
  | [pre, nm] =>
    if pre = "" then .cons (buildMarkerNode nm "") .nil
    else .cons (.text pre) (.cons (buildMarkerNode nm "") .nil)
  | pre :: nm :: inner :: rest =>
    if pre = "" then .cons (buildMarkerNode nm inner) (rebuildParts rest)
    else .cons (.text pre) (.cons (buildMarkerNode nm inner) (rebuildParts rest))

/-- The children written into a segment's element by
`_inject_translations`: when the split yields a single part the whole text
becomes the element's string, otherwise the parts are rebuilt into text
nodes, spans and hyperlinks. -/
def rebuildChildren (text : String) : PNodeList :=
  let parts := markerSplit text
  if parts.length = 1 then .cons (.text text) .nil
  else rebuildParts parts

/-- The text chosen for reinjection:
`seg.translated_text if seg.translated_text else seg.original_text`, where
both `None` and the empty string are falsy. -/
def chooseText (s : Segment) : String :=
  match s.translated_text with
  | some t => if t = "" then s.original_text else t
  | none => s.original_text

/-- Model of `_inject_translations(segments)`: for each segment in order,
the rebuilt child list written into its anchor element. -/
def injectTranslations (segs : List Segment) : List PNodeList :=
  segs.map (fun s => rebuildChildren (chooseText s))

/-- C10: during reinjection, a segment whose `translated_text` is the empty
string (not only an absent one) is injected with its original source text;
an empty translation result never erases the segment's content. -/
theorem inject_empty_translation_uses_original (segs : List Segment) (i : Nat)
    (s : Segment) (hget : segs[i]? = some s) (hempty : s.translated_text = some "") :
    (injectTranslations segs)[i]? = some (rebuildChildren s.original_text) := by
  simp [injectTranslations, hget, chooseText, hempty]

theorem inject_empty_translation_uses_original_witness :
    ([⟨0, "orig", some ""⟩] : List Segment)[0]? = some ⟨0, "orig", some ""⟩ ∧
      (⟨0, "orig", some ""⟩ : Segment).translated_text = some "" ∧
      (injectTranslations [⟨0, "orig", some ""⟩])[0]? =
        some (rebuildChildren "orig") :=
  ⟨by decide, by decide,
    inject_empty_translation_uses_original [⟨0, "orig", some ""⟩] 0 ⟨0, "orig", some ""⟩
      (by decide) (by decide)⟩

theorem string_mk_data (s : String) : String.mk s.data = s := by
  cases s
  rfl

theorem string_eq_empty_iff (s : String) : s = "" ↔ s.data = [] := by
  constructor
  · intro h; rw [h]
  · intro h
    cases s with
    | mk d => cases h; rfl

theorem toNat_charOfNat (n : Nat) (h : n < 55296) : (Char.ofNat n).toNat = n := by
  have hv : Nat.isValidChar n := Or.inl h
  simp only [Char.ofNat, hv, dite_true, Char.ofNatAux, Char.toNat, UInt32.toNat,
    BitVec.toNat_ofNatLt]

theorem char_toNat_lt (c : Char) : c.toNat < 1114112 := by
  rcases c.valid with h | h
  · exact Nat.lt_trans h (by decide)
  · exact h.2

theorem utf8Bytes_lt (c : Char) : ∀ b ∈ utf8Bytes c, b < 256 := by
  intro b hb
  have hlt := char_toNat_lt c
  unfold utf8Bytes at hb
  by_cases h1 : c.toNat < 0x80
  · simp only [h1, if_true, List.mem_singleton] at hb
    omega
  · by_cases h2 : c.toNat < 0x800
    · simp only [h1, h2, if_true, if_false, List.mem_cons, List.mem_singleton,
        List.not_mem_nil, or_false] at hb
      rcases hb with rfl | rfl <;> omega
    · by_cases h3 : c.toNat < 0x10000
      · simp only [h1, h2, h3, if_true, if_false, List.mem_cons, List.mem_singleton,
          List.not_mem_nil, or_false] at hb
        rcases hb with rfl | rfl | rfl <;> omega
      · simp only [h1, h2, h3, if_false, List.mem_cons, List.not_mem_nil, or_false] at hb
        rcases hb with rfl | rfl | rfl | rfl <;> omega

theorem utf8Bytes_ne_nil (c : Char) : utf8Bytes c ≠ [] := by
  unfold utf8Bytes
  by_cases h1 : c.toNat < 0x80
  · simp [h1]
  · by_cases h2 : c.toNat < 0x800
    · simp [h1, h2]
    · by_cases h3 : c.toNat < 0x10000 <;> simp [h1, h2, h3]

theorem utf8DecodeGo_cons (fuel b0 : Nat) (rest : List Nat) :
    utf8DecodeGo (fuel + 1) (b0 :: rest) =
      if b0 < 0x80 then Char.ofNat b0 :: utf8DecodeGo fuel rest
      else if b0 < 0xE0 then
        Char.ofNat ((b0 - 0xC0) * 64 + (rest.headD 0 - 0x80)) ::
          utf8DecodeGo fuel (rest.drop 1)
      else if b0 < 0xF0 then
        Char.ofNat ((b0 - 0xE0) * 4096 + (rest.headD 0 - 0x80) * 64 +
          ((rest.drop 1).headD 0 - 0x80)) :: utf8DecodeGo fuel (rest.drop 2)
      else
        Char.ofNat ((b0 - 0xF0) * 262144 + (rest.headD 0 - 0x80) * 4096 +
          ((rest.drop 1).headD 0 - 0x80) * 64 + ((rest.drop 2).headD 0 - 0x80)) ::
          utf8DecodeGo fuel (rest.drop 3) := rfl

theorem utf8DecodeGo_utf8Bytes (c : Char) (rest : List Nat) (fuel : Nat) :
    utf8DecodeGo (fuel + 1) (utf8Bytes c ++ rest) = c :: utf8DecodeGo fuel rest := by
  have hlt := char_toNat_lt c
  unfold utf8Bytes
  by_cases h1 : c.toNat < 0x80
  · simp only [h1, if_true, List.cons_append, List.nil_append]
    rw [utf8DecodeGo_cons, if_pos h1, Char.ofNat_toNat]
  · by_cases h2 : c.toNat < 0x800
    · simp only [h1, h2, if_true, if_false, List.cons_append, List.nil_append]
      rw [utf8DecodeGo_cons, if_neg (by omega), if_pos (by omega)]
      simp only [List.headD_cons, List.drop_succ_cons, List.drop_zero]
      have harith : (0xC0 + c.toNat / 64 - 0xC0) * 64 + (0x80 + c.toNat % 64 - 0x80) =
          c.toNat := by omega
      rw [harith, Char.ofNat_toNat]
    · by_cases h3 : c.toNat < 0x10000
      · simp only [h1, h2, h3, if_true, if_false, List.cons_append, List.nil_append]
        rw [utf8DecodeGo_cons, if_neg (by omega), if_neg (by omega), if_pos (by omega)]
        simp only [List.headD_cons, List.drop_succ_cons, List.drop_zero]
        have harith : (0xE0 + c.toNat / 4096 - 0xE0) * 4096 +
            (0x80 + c.toNat / 64 % 64 - 0x80) * 64 + (0x80 + c.toNat % 64 - 0x80) =
            c.toNat := by omega
        rw [harith, Char.ofNat_toNat]
      · simp only [h1, h2, h3, if_false, List.cons_append, List.nil_append]
        rw [utf8DecodeGo_cons, if_neg (by omega), if_neg (by omega), if_neg (by omega)]
        simp only [List.headD_cons, List.drop_succ_cons, List.drop_zero]
        have harith : (0xF0 + c.toNat / 262144 - 0xF0) * 262144 +
            (0x80 + c.toNat / 4096 % 64 - 0x80) * 4096 +
            (0x80 + c.toNat / 64 % 64 - 0x80) * 64 + (0x80 + c.toNat % 64 - 0x80) =
            c.toNat := by omega
        rw [harith, Char.ofNat_toNat]

theorem utf8DecodeGo_encode (cs : List Char) :
    ∀ (fuel : Nat), cs.length ≤ fuel →
      utf8DecodeGo fuel ((cs.map utf8Bytes).flatten) = cs := by
  induction cs with
  | nil =>
    intro fuel _
    cases fuel <;> rfl
  | cons c cs ih =>
    intro fuel hfuel
    obtain ⟨f, rfl⟩ : ∃ f, fuel = f + 1 := by
      cases fuel with
      | zero => simp at hfuel
      | succ f => exact ⟨f, rfl⟩
    simp only [List.map_cons, List.flatten_cons]
    rw [utf8DecodeGo_utf8Bytes, ih f (by simpa using hfuel)]

theorem length_le_flatten_utf8 (cs : List Char) :
    cs.length ≤ ((cs.map utf8Bytes).flatten).length := by
  induction cs with
  | nil => simp
  | cons c cs ih =>
    simp only [List.map_cons, List.flatten_cons, List.length_cons, List.length_append]
    have h1 : 1 ≤ (utf8Bytes c).length := by
      have hne := utf8Bytes_ne_nil c
      cases h : utf8Bytes c with
      | nil => exact absurd h hne
      | cons a l => simp
    omega

theorem utf8Decode_utf8EncodeStr (cs : List Char) :
    utf8Decode ((cs.map utf8Bytes).flatten) = cs := by
  unfold utf8Decode
  exact utf8DecodeGo_encode cs _ (length_le_flatten_utf8 cs)

theorem hexVal_hexDigitChar (d : Nat) (h : d < 16) : hexVal (hexDigitChar d) = some d := by
  interval_cases d <;> decide

theorem quoteSafe_unreserved (b : Nat) (h : isUnreservedByte b = true) :
    (Char.ofNat b).toNat = b ∧ Char.ofNat b ≠ '%' := by
  have hb : b < 55296 := by
    simp only [isUnreservedByte, Bool.or_eq_true, Bool.and_eq_true, decide_eq_true_eq] at h
    omega
  have ht := toNat_charOfNat b hb
  refine ⟨ht, ?_⟩
  intro heq
  have : (Char.ofNat b).toNat = 37 := by rw [heq]; decide
  rw [ht] at this
  subst this
  simp [isUnreservedByte] at h

theorem unquoteBytesGo_quote (bs : List Nat) :
    ∀ (fuel : Nat), (∀ b ∈ bs, b < 256) →
      ((bs.map quoteByteChars).flatten).length ≤ fuel →
      unquoteBytesGo fuel ((bs.map quoteByteChars).flatten) = bs := by
  induction bs with
  | nil =>
    intro fuel _ _
    cases fuel <;> rfl
  | cons b bs ih =>
    intro fuel hlt hfuel
    have hb : b < 256 := hlt b (List.mem_cons_self b bs)
    by_cases hu : isUnreservedByte b
    · simp only [List.map_cons, List.flatten_cons, quoteByteChars, hu, if_true,
        List.cons_append, List.nil_append, List.length_cons] at hfuel ⊢
      obtain ⟨f, rfl⟩ : ∃ f, fuel = f + 1 := by
        cases fuel with
        | zero => omega
        | succ f => exact ⟨f, rfl⟩
      obtain ⟨hto, hpc⟩ := quoteSafe_unreserved b hu
      unfold unquoteBytesGo
      rw [if_neg hpc]
      have hub : utf8Bytes (Char.ofNat b) = [b] := by
        unfold utf8Bytes
        rw [hto]
        have : b < 0x80 := by
          simp only [isUnreservedByte, Bool.or_eq_true, Bool.and_eq_true,
            decide_eq_true_eq] at hu
          omega
        rw [if_pos this]
      rw [hub]
      simp only [List.cons_append, List.nil_append, List.cons.injEq, true_and]
      exact ih f (fun x hx => hlt x (List.mem_cons_of_mem _ hx)) (by omega)
    · simp only [List.map_cons, List.flatten_cons, quoteByteChars, hu,
        Bool.false_eq_true, if_false, List.cons_append, List.nil_append,
        List.length_cons] at hfuel ⊢
      obtain ⟨f, rfl⟩ : ∃ f, fuel = f + 1 := by
        cases fuel with
        | zero => omega
        | succ f => exact ⟨f, rfl⟩
      unfold unquoteBytesGo
      rw [if_pos rfl]
      have hv1 := hexVal_hexDigitChar (b / 16 % 16) (Nat.mod_lt _ (by omega))
      have hv2 := hexVal_hexDigitChar (b % 16) (Nat.mod_lt _ (by omega))
      simp only [hv1, hv2]
      have harith : 16 * (b / 16 % 16) + b % 16 = b := by omega
      rw [harith]
      simp only [List.cons.injEq, true_and]
      exact ih f (fun x hx => hlt x (List.mem_cons_of_mem _ hx)) (by omega)

/-- Percent-decoding inverts percent-encoding: the round-trip law of
`_encode_marker_value` and `_decode_marker_value` on every string. -/
theorem pyUnquote_pyQuote (v : String) : pyUnquote (pyQuote v) = v := by
  unfold pyUnquote pyQuote unquoteBytes
  have hbytes : ∀ b ∈ utf8EncodeStr v, b < 256 := by
    intro b hb
    unfold utf8EncodeStr at hb
    rw [List.mem_flatten] at hb
    obtain ⟨l, hl, hbl⟩ := hb
    rw [List.mem_map] at hl
    obtain ⟨c, _, rfl⟩ := hl
    exact utf8Bytes_lt c b hbl
  rw [show (String.mk ((utf8EncodeStr v).map quoteByteChars).flatten).data =
    ((utf8EncodeStr v).map quoteByteChars).flatten from rfl]
  rw [unquoteBytesGo_quote (utf8EncodeStr v) _ hbytes (by omega)]
  unfold utf8EncodeStr
  rw [utf8Decode_utf8EncodeStr, string_mk_data]

/-- The characters that can appear in `pyQuote` output: unreserved ASCII
or the escape lead `%` (hex digits are themselves unreserved). -/
def pyQuoteSafeChar (c : Char) : Bool :=
  isUnreservedByte c.toNat || c = '%'

theorem hexDigitChar_safe (d : Nat) (h : d < 16) :
    pyQuoteSafeChar (hexDigitChar d) = true := by
  interval_cases d <;> decide

theorem pyQuote_chars_safe (v : String) (c : Char) (hc : c ∈ (pyQuote v).data) :
    pyQuoteSafeChar c = true := by
  have hdata : (pyQuote v).data = ((utf8EncodeStr v).map quoteByteChars).flatten := rfl
  rw [hdata, List.mem_flatten] at hc
  obtain ⟨l, hl, hcl⟩ := hc
  rw [List.mem_map] at hl
  obtain ⟨b, hb, rfl⟩ := hl
  have hb256 : b < 256 := by
    unfold utf8EncodeStr at hb
    rw [List.mem_flatten] at hb
    obtain ⟨bl, hbl, hbbl⟩ := hb
    rw [List.mem_map] at hbl
    obtain ⟨ch, _, rfl⟩ := hbl
    exact utf8Bytes_lt ch b hbbl
  unfold quoteByteChars at hcl
  by_cases hu : isUnreservedByte b
  · rw [if_pos hu, List.mem_singleton] at hcl
    subst hcl
    have := (quoteSafe_unreserved b hu).1
    simp [pyQuoteSafeChar, this, hu]
  · rw [if_neg hu] at hcl
    simp only [List.mem_cons, List.not_mem_nil, or_false] at hcl
    rcases hcl with rfl | rfl | rfl
    · decide
    · exact hexDigitChar_safe _ (Nat.mod_lt _ (by omega))
    · exact hexDigitChar_safe _ (Nat.mod_lt _ (by omega))

theorem pyQuoteSafeChar_ne (c : Char) (h : pyQuoteSafeChar c = true) :
    c ≠ '>' ∧ c ≠ '\n' ∧ c ≠ '|' ∧ c ≠ '=' ∧ c ≠ '<' := by
  have htoNat : c.toNat ≠ 62 ∧ c.toNat ≠ 10 ∧ c.toNat ≠ 124 ∧ c.toNat ≠ 61 ∧
      c.toNat ≠ 60 := by
    simp only [pyQuoteSafeChar, Bool.or_eq_true, isUnreservedByte, decide_eq_true_eq,
      Bool.and_eq_true] at h
    rcases h with h | h
    · omega
    · have : c.toNat = 37 := by rw [h]; decide
      omega
  refine ⟨?_, ?_, ?_, ?_, ?_⟩ <;> intro heq <;> subst heq
  · exact htoNat.1 (by decide)
  · exact htoNat.2.1 (by decide)
  · exact htoNat.2.2.1 (by decide)
  · exact htoNat.2.2.2.1 (by decide)
  · exact htoNat.2.2.2.2 (by decide)

theorem checkGtGt_cons_ne (c : Char) (l : List Char) (h : c ≠ '>') :
    checkGtGt (c :: l) = false := by
  cases l <;> simp [checkGtGt, h]

theorem findClose_exact :
    ∀ (pl : List Char) (cs : List Char), pl ≠ [] →
      (∀ c ∈ pl, c ≠ '>' ∧ c ≠ '\n') →
      findClose (pl ++ '>' :: '>' :: cs) = some (pl, cs) := by
  intro pl
  induction pl with
  | nil => intro cs h _; exact absurd rfl h
  | cons c pl ih =>
    intro cs _ hsafe
    have hc := hsafe c (List.mem_cons_self c pl)
    cases pl with
    | nil =>
      simp only [List.cons_append, List.nil_append]
      unfold findClose
      rw [if_neg hc.2, if_pos (show checkGtGt ('>' :: '>' :: cs) = true from rfl)]
      rfl
    | cons c2 pl2 =>
      have hc2 := hsafe c2 (List.mem_cons_of_mem _ (List.mem_cons_self c2 pl2))
      have hih := ih cs (by simp) (fun x hx => hsafe x (List.mem_cons_of_mem _ hx))
      simp only [List.cons_append] at hih ⊢
      unfold findClose
      rw [if_neg hc.2]
      rw [show checkGtGt (c2 :: (pl2 ++ '>' :: '>' :: cs)) = false from
        checkGtGt_cons_ne c2 _ hc2.1]
      rw [hih]
      rfl

theorem matchMarkerAt_cons2 (c1 c2 : Char) (rest : List Char) :
    matchMarkerAt (c1 :: c2 :: rest) =
      if c1 = '<' && c2 = '<' then
        (match rest.dropWhile nameChar with
         | d :: rest3 =>
           if rest.takeWhile nameChar ≠ [] ∧ d = ':' then
             (findClose rest3).map (fun pr => (rest.takeWhile nameChar, pr.1, pr.2))
           else none
         | [] => none)
      else none := rfl

theorem matchMarkerAt_not_lt (c : Char) (l : List Char) (h : c ≠ '<') :
    matchMarkerAt (c :: l) = none := by
  cases l with
  | nil => rfl
  | cons c2 l2 =>
    rw [matchMarkerAt_cons2]
    simp [h]

theorem matchMarkerAt_eval (c1 c2 : Char) (rest : List Char) (d : Char)
    (rest3 : List Char) (hd : rest.dropWhile nameChar = d :: rest3) :
    matchMarkerAt (c1 :: c2 :: rest) =
      if c1 = '<' && c2 = '<' then
        (if rest.takeWhile nameChar ≠ [] ∧ d = ':' then
          (findClose rest3).map (fun pr => (rest.takeWhile nameChar, pr.1, pr.2))
         else none)
      else none := by
  rw [matchMarkerAt_cons2, hd]

theorem matchMarkerAt_marker (nm pl cs : List Char)
    (hnm : nm ≠ []) (hnmc : ∀ c ∈ nm, nameChar c = true)
    (hpl : pl ≠ []) (hplc : ∀ c ∈ pl, c ≠ '>' ∧ c ≠ '\n') :
    matchMarkerAt ('<' :: '<' :: (nm ++ ':' :: (pl ++ '>' :: '>' :: cs))) =
      some (nm, pl, cs) := by
  have htw := takeWhile_all_append nameChar nm ':' (pl ++ '>' :: '>' :: cs) hnmc (by decide)
  rw [matchMarkerAt_eval '<' '<' _ ':' (pl ++ '>' :: '>' :: cs) htw.2]
  rw [if_pos (by decide)]
  simp only [htw.1]
  rw [if_pos ⟨hnm, trivial⟩, findClose_exact pl cs hpl hplc]
  rfl

theorem splitGo_succ (fuel : Nat) (acc cs : List Char) :
    splitGo (fuel + 1) acc cs =
      match matchMarkerAt cs with
      | some (nm, pl, rest) =>
        String.mk acc.reverse :: String.mk nm :: String.mk pl :: splitGo fuel [] rest
      | none =>
        match cs with
        | [] => [String.mk acc.reverse]
        | c :: cs2 => splitGo fuel (c :: acc) cs2 := rfl

theorem splitGo_plain :
    ∀ (p : List Char), (∀ c ∈ p, c ≠ '<') →
      ∀ (fuel : Nat) (acc cs : List Char),
        splitGo (fuel + p.length) acc (p ++ cs) = splitGo fuel (p.reverse ++ acc) cs := by
  intro p
  induction p with
  | nil => intro _ fuel acc cs; simp
  | cons c p ih =>
    intro hp fuel acc cs
    have hc : c ≠ '<' := hp c (List.mem_cons_self c p)
    have hrest := ih (fun x hx => hp x (List.mem_cons_of_mem _ hx)) fuel (c :: acc) cs
    calc splitGo (fuel + (c :: p).length) acc ((c :: p) ++ cs)
        = splitGo ((fuel + p.length) + 1) acc (c :: (p ++ cs)) := rfl
      _ = splitGo (fuel + p.length) (c :: acc) (p ++ cs) := by
          rw [splitGo_succ, matchMarkerAt_not_lt c _ hc]
      _ = splitGo fuel (p.reverse ++ (c :: acc)) cs := hrest
      _ = splitGo fuel ((c :: p).reverse ++ acc) cs := by
          simp only [List.reverse_cons, List.append_assoc, List.singleton_append]

theorem splitGo_marker (nm pl cs : List Char) (fuel : Nat) (acc : List Char)
    (hnm : nm ≠ []) (hnmc : ∀ c ∈ nm, nameChar c = true)
    (hpl : pl ≠ []) (hplc : ∀ c ∈ pl, c ≠ '>' ∧ c ≠ '\n') :
    splitGo (fuel + 1) acc ('<' :: '<' :: (nm ++ ':' :: (pl ++ '>' :: '>' :: cs))) =
      String.mk acc.reverse :: String.mk nm :: String.mk pl :: splitGo fuel [] cs := by
  rw [splitGo_succ, matchMarkerAt_marker nm pl cs hnm hnmc hpl hplc]

theorem string_mk_append (a b : List Char) :
    String.mk (a ++ b) = String.mk a ++ String.mk b := rfl

/-- Prepend a string onto the first element of a part list (the effect of
preceding plain text on the first piece of a regex split). -/
def prependHead (s : String) : List String → List String
  | [] => [s]
  | p :: ps => (s ++ p) :: ps

/-- The part list `_INLINE_MARKER_RE.split` produces on the extraction of a
canonical forest: marker children contribute their name and payload groups,
text children merge into the preceding piece boundary. -/
def partsOf : PNodeList → List String
  | .nil => [""]
  | .cons (.text s) rest => prependHead s (partsOf rest)
  | .cons (.tag nm href aid cls children) rest =>
    if nm = "a" then
      "" :: "a" :: linkMarkerPayload href aid cls children :: partsOf rest
    else
      "" :: (((cls.filter (fun c => preserveInlineClasses.contains c)).head?).getD "") ::
        children.getText :: partsOf rest

theorem partsOf_ne_nil (ns : PNodeList) : partsOf ns ≠ [] := by
  cases ns with
  | nil => simp [partsOf]
  | cons n rest =>
    cases n with
    | text s =>
      simp only [partsOf]
      cases partsOf rest <;> simp [prependHead]
    | tag nm href aid cls children =>
      simp only [partsOf]
      by_cases h : nm = "a" <;> simp [h]

theorem prependHead_prepend (a b : String) (l : List String) :
    prependHead a (prependHead b l) = prependHead (a ++ b) l := by
  cases l <;> simp [prependHead, String.append_assoc]

theorem prependHead_empty (l : List String) (h : l ≠ []) : prependHead "" l = l := by
  cases l with
  | nil => exact absurd rfl h
  | cons p ps => simp [prependHead]

/-- Inner text acceptable inside a preserve-class span for the round trip:
non-empty and free of the characters that break the flat marker encoding
(`<`, `>`, newline) or the span reparse (`&`). -/
def canonInlineText (t : String) : Bool :=
  t ≠ "" && t.data.all (fun c => c ≠ '<' && c ≠ '>' && c ≠ '\n' && c ≠ '&')

/-- Canonical preserve-class span shape: exactly one class, from the
preserve set, and a single text child with acceptable inner text. -/
def canonSpanShape (cls : List String) (children : PNodeList) : Bool :=
  match cls, children with
  | [c], .cons (.text t) .nil => preserveInlineClasses.contains c && canonInlineText t
  | _, _ => false

/-- Canonical hyperlink content: empty, or a single non-empty text child. -/
def canonLinkChildren : PNodeList → Bool
  | .nil => true
  | .cons (.text t) .nil => t ≠ ""
  | _ => false

/-- One canonical child of a block element: a non-empty `<`-free text node,
a hyperlink with clean class names and plain content, or a canonical
preserve-class span. -/
def canonNode : PNode → Bool
  | .text s => s ≠ "" && s.data.all (fun c => c ≠ '<')
  | .tag nm href aid cls children =>
    if nm = "a" then
      cls.all (fun cn => cn ≠ "" && cn.data.all (fun ch => !isPySpace ch)) &&
        canonLinkChildren children
    else
      nm = "span" && href = "" && aid = "" && canonSpanShape cls children

/-- All children canonical. -/
def canonNodes : PNodeList → Bool
  | .nil => true
  | .cons n rest => canonNode n && canonNodes rest

/-- No two adjacent text children (the post-`smooth` shape of a `bs4`
tree). -/
def noAdjacentTexts : PNodeList → Bool
  | .nil => true
  | .cons (.text _) rest =>
    (match rest with
     | .cons (.text _) _ => false
     | _ => true) && noAdjacentTexts rest
  | .cons _ rest => noAdjacentTexts rest

/-- The canonical-forest predicate of the amended round-trip law. -/
def canonForest (ns : PNodeList) : Bool :=
  (match ns with
   | .nil => false
   | _ => true) && canonNodes ns && noAdjacentTexts ns

theorem canonSpanShape_dest (cls : List String) (children : PNodeList)
    (h : canonSpanShape cls children = true) :
    ∃ c t, cls = [c] ∧ children = .cons (.text t) .nil ∧
      preserveInlineClasses.contains c = true ∧ canonInlineText t = true := by
  cases cls with
  | nil => simp [canonSpanShape] at h
  | cons c cls2 =>
    cases cls2 with
    | cons _ _ => simp [canonSpanShape] at h
    | nil =>
      cases children with
      | nil => simp [canonSpanShape] at h
      | cons hd tl =>
        cases hd with
        | tag nm2 h2 a2 c2 ch2 => simp [canonSpanShape] at h
        | text t =>
          cases tl with
          | cons _ _ => simp [canonSpanShape] at h
          | nil =>
            simp only [canonSpanShape, Bool.and_eq_true] at h
            exact ⟨c, t, rfl, rfl, h.1, h.2⟩

theorem canonLinkChildren_dest (children : PNodeList)
    (h : canonLinkChildren children = true) :
    children = .nil ∨ ∃ t, children = .cons (.text t) .nil ∧ t ≠ "" := by
  cases children with
  | nil => exact Or.inl rfl
  | cons hd tl =>
    cases hd with
    | tag nm2 h2 a2 c2 ch2 => simp [canonLinkChildren] at h
    | text t =>
      cases tl with
      | cons _ _ => simp [canonLinkChildren] at h
      | nil =>
        refine Or.inr ⟨t, rfl, ?_⟩
        simpa [canonLinkChildren] using h

theorem preserve_class_nameChars (c : String)
    (hc : preserveInlineClasses.contains c = true) :
    c.data ≠ [] ∧ (∀ ch ∈ c.data, nameChar ch = true) ∧ c ≠ "a" := by
  have hm : c ∈ preserveInlineClasses := List.elem_iff.mp hc
  simp only [preserveInlineClasses, List.mem_cons, List.not_mem_nil, or_false] at hm
  rcases hm with rfl | rfl | rfl
  · exact ⟨by decide, by decide, by decide⟩
  · exact ⟨by decide, by decide, by decide⟩
  · exact ⟨by decide, by decide, by decide⟩

theorem extractChildText_link (href aid : String) (cls : List String)
    (children : PNodeList) :
    extractChildText (.tag "a" href aid cls children) =
      "<<a:" ++ linkMarkerPayload href aid cls children ++ ">>" := rfl

theorem extractChildText_span (nm href aid : String) (c : String)
    (children : PNodeList) (hnm : nm ≠ "a")
    (hc : preserveInlineClasses.contains c = true) :
    extractChildText (.tag nm href aid [c] children) =
      "<<" ++ c ++ ":" ++ children.getText ++ ">>" := by
  have hm : c ∈ preserveInlineClasses := List.elem_iff.mp hc
  have hfilter : ([c].filter (fun x => preserveInlineClasses.contains x)) = [c] := by
    simp [hc, hm]
  simp only [extractChildText, if_neg hnm, hfilter, List.head?_cons, Option.getD_some]

theorem linkPayload_ne_nil (href aid : String) (cls : List String)
    (children : PNodeList) :
    (linkMarkerPayload href aid cls children).data ≠ [] := by
  intro h
  have hl := congrArg List.length h
  simp only [linkMarkerPayload, String.data_append, List.length_append,
    List.length_nil] at hl
  have h1 : (("href=".data).length) = 5 := by decide
  have h2 : (("||id=".data).length) = 5 := by decide
  have h3 : (("||class=".data).length) = 8 := by decide
  have h4 : (("||text=".data).length) = 7 := by decide
  simp only [show "href=".data = ['h', 'r', 'e', 'f', '='] from rfl,
    show "||id=".data = ['|', '|', 'i', 'd', '='] from rfl,
    show "||class=".data = ['|', '|', 'c', 'l', 'a', 's', 's', '='] from rfl,
    show "||text=".data = ['|', '|', 't', 'e', 'x', 't', '='] from rfl,
    List.length_cons, List.length_nil] at hl
  omega

theorem linkPayload_safe (href aid : String) (cls : List String)
    (children : PNodeList) :
    ∀ ch ∈ (linkMarkerPayload href aid cls children).data, ch ≠ '>' ∧ ch ≠ '\n' := by
  intro ch hch
  simp only [linkMarkerPayload, String.data_append, List.mem_append] at hch
  have hlit1 : ∀ x ∈ (['h', 'r', 'e', 'f', '='] : List Char), x ≠ '>' ∧ x ≠ '\n' := by
    decide
  have hlit2 : ∀ x ∈ (['|', '|', 'i', 'd', '='] : List Char), x ≠ '>' ∧ x ≠ '\n' := by
    decide
  have hlit3 : ∀ x ∈ (['|', '|', 'c', 'l', 'a', 's', 's', '='] : List Char),
      x ≠ '>' ∧ x ≠ '\n' := by decide
  have hlit4 : ∀ x ∈ (['|', '|', 't', 'e', 'x', 't', '='] : List Char),
      x ≠ '>' ∧ x ≠ '\n' := by decide
  have hq : ∀ (v : String), ch ∈ (pyQuote v).data → ch ≠ '>' ∧ ch ≠ '\n' := by
    intro v hv
    exact ⟨(pyQuoteSafeChar_ne ch (pyQuote_chars_safe v ch hv)).1,
      (pyQuoteSafeChar_ne ch (pyQuote_chars_safe v ch hv)).2.1⟩
  rcases hch with ((((((h | h) | h) | h) | h) | h) | h) | h
  · exact hlit1 ch h
  · exact hq _ h
  · exact hlit2 ch h
  · exact hq _ h
  · exact hlit3 ch h
  · exact hq _ h
  · exact hlit4 ch h
  · exact hq _ h

theorem canonInlineText_dest (t : String) (h : canonInlineText t = true) :
    t.data ≠ [] ∧ ∀ ch ∈ t.data, ch ≠ '<' ∧ ch ≠ '>' ∧ ch ≠ '\n' ∧ ch ≠ '&' := by
  simp only [canonInlineText, Bool.and_eq_true, decide_eq_true_eq, List.all_eq_true,
    Bool.not_eq_true] at h
  obtain ⟨hne, hall⟩ := h
  refine ⟨fun hd => hne ((string_eq_empty_iff t).mpr hd), ?_⟩
  intro ch hch
  have := hall ch hch
  simp only [Bool.and_eq_true, decide_eq_true_eq] at this
  exact ⟨this.1.1.1, this.1.1.2, this.1.2, this.2⟩

/-- The regex scan of the extraction of a forest of canonical children
produces exactly the interleaved part list `partsOf`. -/
theorem splitGo_extract :
    ∀ (ns : PNodeList), canonNodes ns = true →
      ∀ (fuel : Nat) (acc : List Char), (extractInline ns).data.length < fuel →
        splitGo fuel acc (extractInline ns).data =
          prependHead (String.mk acc.reverse) (partsOf ns)
  | .nil => by
    intro _ fuel acc hf
    obtain ⟨f, rfl⟩ : ∃ f, fuel = f + 1 := ⟨fuel - 1, by omega⟩
    show splitGo (f + 1) acc [] = prependHead (String.mk acc.reverse) [""]
    rw [splitGo_succ]
    show [String.mk acc.reverse] = prependHead (String.mk acc.reverse) [""]
    simp [prependHead, String.append_empty]
  | .cons (.text s) rest => by
    intro hcanon fuel acc hf
    simp only [canonNodes, Bool.and_eq_true] at hcanon
    obtain ⟨hcn, hcr⟩ := hcanon
    have hlt : ∀ c ∈ s.data, c ≠ '<' := by
      simp only [canonNode, Bool.and_eq_true, List.all_eq_true, decide_eq_true_eq] at hcn
      exact hcn.2
    have hdata : (extractInline (.cons (.text s) rest)).data =
        s.data ++ (extractInline rest).data := by
      simp [extractInline, extractChildText, String.data_append]
    rw [hdata] at hf ⊢
    have hlen : s.data.length ≤ fuel := by
      simp only [List.length_append] at hf
      omega
    have hfe : fuel = (fuel - s.data.length) + s.data.length := by omega
    rw [hfe, splitGo_plain s.data hlt (fuel - s.data.length) acc (extractInline rest).data]
    have hbound : (extractInline rest).data.length < fuel - s.data.length := by
      simp only [List.length_append] at hf
      omega
    rw [splitGo_extract rest hcr (fuel - s.data.length) (s.data.reverse ++ acc) hbound]
    have hrev : (s.data.reverse ++ acc).reverse = acc.reverse ++ s.data := by
      simp
    rw [hrev, string_mk_append, string_mk_data]
    simp only [partsOf]
    rw [prependHead_prepend]
  | .cons (.tag nm href aid cls children) rest => by
    intro hcanon fuel acc hf
    simp only [canonNodes, Bool.and_eq_true] at hcanon
    obtain ⟨hcn, hcr⟩ := hcanon
    by_cases ha : nm = "a"
    · subst ha
      have hpne := linkPayload_ne_nil href aid cls children
      have hpsafe := linkPayload_safe href aid cls children
      have hdata : (extractInline (.cons (.tag "a" href aid cls children) rest)).data =
          '<' :: '<' :: (['a'] ++ ':' ::
            ((linkMarkerPayload href aid cls children).data ++ '>' :: '>' ::
              (extractInline rest).data)) := by
        show (("<<a:" ++ linkMarkerPayload href aid cls children ++ ">>") ++
          extractInline rest).data = _
        simp only [String.data_append, List.append_assoc]
        rfl
      rw [hdata] at hf ⊢
      obtain ⟨f, rfl⟩ : ∃ f, fuel = f + 1 := ⟨fuel - 1, by omega⟩
      rw [splitGo_marker ['a'] (linkMarkerPayload href aid cls children).data
        (extractInline rest).data f acc (by simp) (by decide) hpne hpsafe]
      have hbound : (extractInline rest).data.length < f := by
        simp only [List.length_cons, List.length_append, List.singleton_append] at hf
        omega
      rw [splitGo_extract rest hcr f [] hbound]
      rw [show String.mk ([] : List Char).reverse = "" from rfl]
      rw [prependHead_empty _ (partsOf_ne_nil rest)]
      simp only [partsOf, if_pos rfl]
      simp [prependHead, string_mk_data, String.append_empty]
    · have hsp : nm = "span" ∧ href = "" ∧ aid = "" ∧
          canonSpanShape cls children = true := by
        simp only [canonNode, if_neg ha, Bool.and_eq_true, decide_eq_true_eq] at hcn
        exact ⟨hcn.1.1.1, hcn.1.1.2, hcn.1.2, hcn.2⟩
      obtain ⟨hnm, hhref, haid, hshape⟩ := hsp
      subst hnm hhref haid
      obtain ⟨c, t, rfl, rfl, hc, hct⟩ := canonSpanShape_dest cls children hshape
      obtain ⟨hcne, hcnc, hcna⟩ := preserve_class_nameChars c hc
      obtain ⟨htne, htsafe⟩ := canonInlineText_dest t hct
      have hgt : (PNodeList.cons (.text t) .nil).getText = t := by
        simp [PNodeList.getText, PNode.getText, String.append_empty]
      have hextr := extractChildText_span "span" "" "" c (.cons (.text t) .nil)
        (by decide) hc
      have hdata : (extractInline (.cons
          (.tag "span" "" "" [c] (.cons (.text t) .nil)) rest)).data =
          '<' :: '<' :: (c.data ++ ':' :: (t.data ++ '>' :: '>' ::
            (extractInline rest).data)) := by
        show (extractChildText (.tag "span" "" "" [c] (.cons (.text t) .nil)) ++
          extractInline rest).data = _
        rw [hextr, hgt]
        simp only [String.data_append, List.append_assoc]
        rfl
      rw [hdata] at hf ⊢
      obtain ⟨f, rfl⟩ : ∃ f, fuel = f + 1 := ⟨fuel - 1, by omega⟩
      rw [splitGo_marker c.data t.data (extractInline rest).data f acc hcne hcnc htne
        (fun x hx => ⟨(htsafe x hx).2.1, (htsafe x hx).2.2.1⟩)]
      have hbound : (extractInline rest).data.length < f := by
        simp only [List.length_cons, List.length_append] at hf
        omega
      rw [splitGo_extract rest hcr f [] hbound]
      rw [show String.mk ([] : List Char).reverse = "" from rfl]
      rw [prependHead_empty _ (partsOf_ne_nil rest)]
      have hhead : (([c].filter (fun x => preserveInlineClasses.contains x)).head?).getD ""
          = c := by
        have hm : c ∈ preserveInlineClasses := List.elem_iff.mp hc
        simp [hc, hm]
      simp only [partsOf, if_neg ha, hhead, hgt, string_mk_data]
      cases hparts : partsOf rest <;> simp [prependHead, string_mk_data]

theorem splitPipesGo_cons (fuel : Nat) (acc : List Char) (c : Char) (rest : List Char) :
    splitPipesGo (fuel + 1) acc (c :: rest) =
      if c = '|' && checkPipe rest then
        String.mk acc.reverse :: splitPipesGo fuel [] (rest.drop 1)
      else splitPipesGo fuel (c :: acc) rest := rfl

theorem splitPipesGo_end (fuel : Nat) (acc : List Char) :
    splitPipesGo fuel acc [] = [String.mk acc.reverse] := by
  cases fuel <;> rfl

theorem splitPipesGo_advance :
    ∀ (w : List Char), (∀ c ∈ w, c ≠ '|') →
      ∀ (fuel : Nat) (acc cs : List Char),
        splitPipesGo (fuel + w.length) acc (w ++ cs) =
          splitPipesGo fuel (w.reverse ++ acc) cs := by
  intro w
  induction w with
  | nil => intro _ fuel acc cs; simp
  | cons c w ih =>
    intro hw fuel acc cs
    have hc : c ≠ '|' := hw c (List.mem_cons_self c w)
    have hcond : (decide (c = '|') && checkPipe (w ++ cs)) = false := by
      simp [hc]
    calc splitPipesGo (fuel + (c :: w).length) acc ((c :: w) ++ cs)
        = splitPipesGo ((fuel + w.length) + 1) acc (c :: (w ++ cs)) := rfl
      _ = splitPipesGo (fuel + w.length) (c :: acc) (w ++ cs) := by
          rw [splitPipesGo_cons, hcond]
          simp only [Bool.false_eq_true, if_false]
      _ = splitPipesGo fuel (w.reverse ++ (c :: acc)) cs :=
          ih (fun x hx => hw x (List.mem_cons_of_mem _ hx)) fuel (c :: acc) cs
      _ = splitPipesGo fuel ((c :: w).reverse ++ acc) cs := by
          simp only [List.reverse_cons, List.append_assoc, List.singleton_append]

theorem splitPipesGo_sep (fuel : Nat) (acc cs : List Char) :
    splitPipesGo (fuel + 1) acc ('|' :: '|' :: cs) =
      String.mk acc.reverse :: splitPipesGo fuel [] cs := by
  rw [splitPipesGo_cons,
    if_pos (show (decide (('|' : Char) = '|') && checkPipe ('|' :: cs)) = true from rfl)]
  rfl

/-- Words joined by the two-character separator `||`. -/
def joinPipeWords : List (List Char) → List Char
  | [] => []
  | [w] => w
  | w :: rest => w ++ '|' :: '|' :: joinPipeWords rest

theorem splitPipesGo_words :
    ∀ (ws : List (List Char)), (∀ w ∈ ws, ∀ c ∈ w, c ≠ '|') →
      ∀ (fuel : Nat) (acc : List Char), (joinPipeWords ws).length < fuel →
        splitPipesGo fuel acc (joinPipeWords ws) =
          (match ws with
           | [] => [String.mk acc.reverse]
           | w :: rest => String.mk (acc.reverse ++ w) :: rest.map String.mk)
  | [] => by
    intro _ fuel acc _
    exact splitPipesGo_end fuel acc
  | [w] => by
    intro hw fuel acc hf
    have hj : joinPipeWords [w] = w := rfl
    rw [hj] at hf ⊢
    have hadv := splitPipesGo_advance w (hw w (List.mem_cons_self w []))
      (fuel - w.length) acc []
    rw [List.append_nil] at hadv
    rw [show fuel = (fuel - w.length) + w.length from by omega, hadv, splitPipesGo_end]
    simp
  | w :: r :: rs => by
    intro hw fuel acc hf
    have hjoin : joinPipeWords (w :: r :: rs) =
        w ++ '|' :: '|' :: joinPipeWords (r :: rs) := rfl
    rw [hjoin] at hf ⊢
    simp only [List.length_append, List.length_cons] at hf
    rw [show fuel = ((fuel - w.length - 1) + 1) + w.length from by omega,
      splitPipesGo_advance w (hw w (List.mem_cons_self w _)) _ acc _]
    rw [splitPipesGo_sep]
    rw [splitPipesGo_words (r :: rs) (fun x hx => hw x (List.mem_cons_of_mem _ hx))
      (fuel - w.length - 1) [] (by omega)]
    simp

theorem pyQuote_no_pipe (v : String) : ∀ c ∈ (pyQuote v).data, c ≠ '|' := by
  intro c hc
  exact (pyQuoteSafeChar_ne c (pyQuote_chars_safe v c hc)).2.2.1

theorem splitOnPipes_linkPayload (href aid : String) (cls : List String)
    (children : PNodeList) :
    splitOnPipes (linkMarkerPayload href aid cls children) =
      ["href=" ++ pyQuote href, "id=" ++ pyQuote aid,
        "class=" ++ pyQuote (joinSpace cls), "text=" ++ pyQuote children.getText] := by
  have hjoin : (linkMarkerPayload href aid cls children).data =
      joinPipeWords [("href=" ++ pyQuote href).data, ("id=" ++ pyQuote aid).data,
        ("class=" ++ pyQuote (joinSpace cls)).data,
        ("text=" ++ pyQuote children.getText).data] := by
    show (("href=" ++ pyQuote href ++ "||id=" ++ pyQuote aid ++ "||class=" ++
      pyQuote (joinSpace cls) ++ "||text=" ++ pyQuote children.getText)).data = _
    simp only [joinPipeWords, String.data_append, List.append_assoc]
    rfl
  have hpf : ∀ w ∈ [("href=" ++ pyQuote href).data, ("id=" ++ pyQuote aid).data,
      ("class=" ++ pyQuote (joinSpace cls)).data,
      ("text=" ++ pyQuote children.getText).data], ∀ c ∈ w, c ≠ '|' := by
    intro w hw c hc
    have hlit1 : ∀ x ∈ (['h', 'r', 'e', 'f', '='] : List Char), x ≠ '|' := by decide
    have hlit2 : ∀ x ∈ (['i', 'd', '='] : List Char), x ≠ '|' := by decide
    have hlit3 : ∀ x ∈ (['c', 'l', 'a', 's', 's', '='] : List Char), x ≠ '|' := by decide
    have hlit4 : ∀ x ∈ (['t', 'e', 'x', 't', '='] : List Char), x ≠ '|' := by decide
    simp only [List.mem_cons, List.not_mem_nil, or_false] at hw
    rcases hw with rfl | rfl | rfl | rfl <;>
      (simp only [String.data_append, List.mem_append] at hc
       rcases hc with h | h)
    · exact hlit1 c h
    · exact pyQuote_no_pipe _ c h
    · exact hlit2 c h
    · exact pyQuote_no_pipe _ c h
    · exact hlit3 c h
    · exact pyQuote_no_pipe _ c h
    · exact hlit4 c h
    · exact pyQuote_no_pipe _ c h
  unfold splitOnPipes
  rw [hjoin, splitPipesGo_words _ hpf _ [] (by omega)]
  refine List.cons_eq_cons.mpr ⟨?_, ?_⟩
  · apply String.ext
    simp [String.data_append]
  · simp only [List.map_cons, List.map_nil]

theorem splitEqGo_cons (c : Char) (rest acc : List Char) :
    splitEqGo (c :: rest) acc =
      if c = '=' then some (String.mk acc.reverse, String.mk rest)
      else splitEqGo rest (c :: acc) := rfl

theorem splitEqGo_advance :
    ∀ (w : List Char), (∀ c ∈ w, c ≠ '=') →
      ∀ (cs acc : List Char), splitEqGo (w ++ cs) acc = splitEqGo cs (w.reverse ++ acc) := by
  intro w
  induction w with
  | nil => intro _ cs acc; simp
  | cons c w ih =>
    intro hw cs acc
    have hc : c ≠ '=' := hw c (List.mem_cons_self c w)
    calc splitEqGo ((c :: w) ++ cs) acc
        = splitEqGo (w ++ cs) (c :: acc) := by
          rw [show ((c :: w) ++ cs) = c :: (w ++ cs) from rfl, splitEqGo_cons, if_neg hc]
      _ = splitEqGo cs (w.reverse ++ (c :: acc)) :=
          ih (fun x hx => hw x (List.mem_cons_of_mem _ hx)) cs (c :: acc)
      _ = splitEqGo cs ((c :: w).reverse ++ acc) := by
          simp only [List.reverse_cons, List.append_assoc, List.singleton_append]

theorem splitFirstEq_keyval (k v : String) (hk : ∀ c ∈ k.data, c ≠ '=') :
    splitFirstEq (k ++ "=" ++ v) = some (k, v) := by
  have hdata : (k ++ "=" ++ v).data = k.data ++ '=' :: v.data := by
    simp only [String.data_append, List.append_assoc]
    rfl
  unfold splitFirstEq
  rw [hdata, splitEqGo_advance k.data hk ('=' :: v.data) [], splitEqGo_cons, if_pos rfl]
  simp [string_mk_data]

theorem splitWsGo_nil (acc : List Char) :
    splitWsGo [] acc = if acc = [] then [] else [String.mk acc.reverse] := rfl

theorem splitWsGo_cons (c : Char) (rest acc : List Char) :
    splitWsGo (c :: rest) acc =
      if isPySpace c then
        (if acc = [] then splitWsGo rest []
         else String.mk acc.reverse :: splitWsGo rest [])
      else splitWsGo rest (c :: acc) := rfl

theorem splitWsGo_advance :
    ∀ (w : List Char), (∀ c ∈ w, isPySpace c = false) →
      ∀ (cs acc : List Char), splitWsGo (w ++ cs) acc = splitWsGo cs (w.reverse ++ acc) := by
  intro w
  induction w with
  | nil => intro _ cs acc; simp
  | cons c w ih =>
    intro hw cs acc
    have hc : isPySpace c = false := hw c (List.mem_cons_self c w)
    calc splitWsGo ((c :: w) ++ cs) acc
        = splitWsGo (w ++ cs) (c :: acc) := by
          rw [show ((c :: w) ++ cs) = c :: (w ++ cs) from rfl, splitWsGo_cons, hc]
          simp only [Bool.false_eq_true, if_false]
      _ = splitWsGo cs (w.reverse ++ (c :: acc)) :=
          ih (fun x hx => hw x (List.mem_cons_of_mem _ hx)) cs (c :: acc)
      _ = splitWsGo cs ((c :: w).reverse ++ acc) := by
          simp only [List.reverse_cons, List.append_assoc, List.singleton_append]

theorem pySplitWs_joinSpace :
    ∀ (cls : List String),
      (∀ cn ∈ cls, cn ≠ "" ∧ ∀ ch ∈ cn.data, isPySpace ch = false) →
      pySplitWs (joinSpace cls) = cls
  | [] => by intro _; rfl
  | [x] => by
    intro h
    obtain ⟨hne, hns⟩ := h x (List.mem_cons_self x [])
    show splitWsGo (joinSpace [x]).data [] = [x]
    have hjx : joinSpace [x] = x := rfl
    have hadv := splitWsGo_advance x.data hns [] []
    rw [List.append_nil] at hadv
    rw [hjx, hadv, splitWsGo_nil]
    have hxd : x.data ≠ [] := fun hd => hne ((string_eq_empty_iff x).mpr hd)
    rw [if_neg (by simpa using hxd)]
    simp [string_mk_data]
  | x :: y :: rest => by
    intro h
    obtain ⟨hne, hns⟩ := h x (List.mem_cons_self x _)
    have hdata : (joinSpace (x :: y :: rest)).data =
        x.data ++ ' ' :: (joinSpace (y :: rest)).data := by
      show (x ++ " " ++ joinSpace (y :: rest)).data = _
      simp only [String.data_append, List.append_assoc]
      rfl
    show splitWsGo (joinSpace (x :: y :: rest)).data [] = x :: y :: rest
    rw [hdata, splitWsGo_advance x.data hns _ [], splitWsGo_cons,
      if_pos (show isPySpace ' ' = true from rfl)]
    have hxd : x.data ≠ [] := fun hd => hne ((string_eq_empty_iff x).mpr hd)
    rw [if_neg (by simpa using hxd)]
    have hrest := pySplitWs_joinSpace (y :: rest)
      (fun cn hcn => h cn (List.mem_cons_of_mem _ hcn))
    unfold pySplitWs at hrest
    rw [hrest]
    simp [string_mk_data]

theorem buildMarkerNode_span_eq (c t : String)
    (hc : preserveInlineClasses.contains c = true) (ht : t ≠ "") :
    buildMarkerNode c t = .tag "span" "" "" [c] (.cons (.text t) .nil) := by
  obtain ⟨_, _, hcna⟩ := preserve_class_nameChars c hc
  unfold buildMarkerNode
  rw [if_neg hcna, if_neg ht]

theorem buildMarkerNode_link_eq (href aid : String) (cls : List String)
    (children : PNodeList)
    (hcls : ∀ cn ∈ cls, cn ≠ "" ∧ ∀ ch ∈ cn.data, isPySpace ch = false)
    (hch : canonLinkChildren children = true) :
    buildMarkerNode "a" (linkMarkerPayload href aid cls children) =
      .tag "a" href aid cls children := by
  have hitems := splitOnPipes_linkPayload href aid cls children
  have hqe : ∀ (k : String), (∀ c ∈ k.data, c ≠ '=') → ∀ (v : String),
      splitFirstEq (k ++ "=" ++ v) = some (k, v) := fun k hk v => splitFirstEq_keyval k v hk
  have h1 : splitFirstEq ("href=" ++ pyQuote href) = some ("href", pyQuote href) := by
    rw [show ("href=" : String) = "href" ++ "=" from by decide]
    exact hqe "href" (by decide) _
  have h2 : splitFirstEq ("id=" ++ pyQuote aid) = some ("id", pyQuote aid) := by
    rw [show ("id=" : String) = "id" ++ "=" from by decide]
    exact hqe "id" (by decide) _
  have h3 : splitFirstEq ("class=" ++ pyQuote (joinSpace cls)) =
      some ("class", pyQuote (joinSpace cls)) := by
    rw [show ("class=" : String) = "class" ++ "=" from by decide]
    exact hqe "class" (by decide) _
  have h4 : splitFirstEq ("text=" ++ pyQuote children.getText) =
      some ("text", pyQuote children.getText) := by
    rw [show ("text=" : String) = "text" ++ "=" from by decide]
    exact hqe "text" (by decide) _
  unfold buildMarkerNode
  rw [if_pos rfl, hitems]
  simp only [List.filterMap_cons, h1, h2, h3, h4, List.filterMap_nil, List.map_cons,
    List.map_nil, pyUnquote_pyQuote]
  have hhref : lookupLast [("href", href), ("id", aid), ("class", joinSpace cls),
      ("text", children.getText)] "href" = some href := rfl
  have haid : lookupLast [("href", href), ("id", aid), ("class", joinSpace cls),
      ("text", children.getText)] "id" = some aid := rfl
  have hcl : lookupLast [("href", href), ("id", aid), ("class", joinSpace cls),
      ("text", children.getText)] "class" = some (joinSpace cls) := rfl
  have htx : lookupLast [("href", href), ("id", aid), ("class", joinSpace cls),
      ("text", children.getText)] "text" = some children.getText := rfl
  rw [hhref, haid, hcl, htx]
  simp only [Option.getD_some]
  rw [pySplitWs_joinSpace cls hcls]
  rcases canonLinkChildren_dest children hch with rfl | ⟨t, rfl, ht⟩
  · simp [PNodeList.getText]
  · have hgt : (PNodeList.cons (.text t) .nil).getText = t := by
      simp [PNodeList.getText, PNode.getText, String.append_empty]
    rw [hgt, if_neg ht]

theorem rebuildParts_cons3 (pre nm inner : String) (tail : List String) :
    rebuildParts (pre :: nm :: inner :: tail) =
      if pre = "" then .cons (buildMarkerNode nm inner) (rebuildParts tail)
      else .cons (.text pre) (.cons (buildMarkerNode nm inner) (rebuildParts tail)) := rfl

theorem canon_tag_parts (nm href aid : String) (cls : List String)
    (children : PNodeList) (rest : PNodeList)
    (hcn : canonNode (.tag nm href aid cls children) = true) :
    ∃ name payload,
      partsOf (.cons (.tag nm href aid cls children) rest) =
        "" :: name :: payload :: partsOf rest ∧
      buildMarkerNode name payload = .tag nm href aid cls children := by
  by_cases ha : nm = "a"
  · subst ha
    have hcn2 : (cls.all (fun cn => cn ≠ "" && cn.data.all fun ch => !isPySpace ch)
        && canonLinkChildren children) = true := by
      simpa [canonNode] using hcn
    rw [Bool.and_eq_true] at hcn2
    obtain ⟨hclsb, hchb⟩ := hcn2
    refine ⟨"a", linkMarkerPayload href aid cls children, by simp [partsOf], ?_⟩
    apply buildMarkerNode_link_eq href aid cls children ?_ hchb
    intro cn hcn2
    have := (List.all_eq_true.mp hclsb) cn hcn2
    simp only [Bool.and_eq_true, decide_eq_true_eq, List.all_eq_true] at this
    exact ⟨this.1, fun ch hch => by
      have h2 := this.2 ch hch
      simpa using h2⟩
  · have hsp : nm = "span" ∧ href = "" ∧ aid = "" ∧
        canonSpanShape cls children = true := by
      simp only [canonNode, if_neg ha, Bool.and_eq_true, decide_eq_true_eq] at hcn
      exact ⟨hcn.1.1.1, hcn.1.1.2, hcn.1.2, hcn.2⟩
    obtain ⟨hnm, hhref, haid, hshape⟩ := hsp
    subst hnm hhref haid
    obtain ⟨c, t, rfl, rfl, hc, hct⟩ := canonSpanShape_dest cls children hshape
    have hm : c ∈ preserveInlineClasses := List.elem_iff.mp hc
    have hhead : (([c].filter (fun x => preserveInlineClasses.contains x)).head?).getD ""
        = c := by simp [hc, hm]
    have hgt : (PNodeList.cons (.text t) .nil).getText = t := by
      simp [PNodeList.getText, PNode.getText, String.append_empty]
    have htne : t ≠ "" := by
      have := canonInlineText_dest t hct
      intro he
      exact this.1 ((string_eq_empty_iff t).mp he)
    refine ⟨c, t, ?_, ?_⟩
    · simp [partsOf, ha, hm, hgt]
    · exact buildMarkerNode_span_eq c t hc htne

theorem noAdjacentTexts_tag_cons (nm href aid : String) (cls : List String)
    (children rest : PNodeList) :
    noAdjacentTexts (.cons (.tag nm href aid cls children) rest) =
      noAdjacentTexts rest := rfl

theorem rebuild_partsOf :
    ∀ (ns : PNodeList), canonNodes ns = true → noAdjacentTexts ns = true →
      rebuildParts (partsOf ns) = ns
  | .nil => by intro _ _; rfl
  | .cons (.text s) .nil => by
    intro hcanon _
    have hs : s ≠ "" := by
      simp only [canonNodes, canonNode, Bool.and_eq_true, decide_eq_true_eq] at hcanon
      exact hcanon.1.1
    have hp : partsOf (.cons (.text s) .nil) = [s] := by
      simp [partsOf, prependHead, String.append_empty]
    rw [hp]
    show (if s = "" then PNodeList.nil else .cons (.text s) .nil) = _
    rw [if_neg hs]
  | .cons (.text s) (.cons (.text s2) rest) => by
    intro _ hadj
    exfalso
    simp [noAdjacentTexts] at hadj
  | .cons (.text s) (.cons (.tag nm href aid cls children) rest) => by
    intro hcanon hadj
    simp only [canonNodes, Bool.and_eq_true] at hcanon
    have hcs := hcanon.1
    have hcn := hcanon.2.1
    have hcr := hcanon.2.2
    have hs : s ≠ "" := by
      simp only [canonNode, Bool.and_eq_true, decide_eq_true_eq] at hcs
      exact hcs.1
    have hadj2 : noAdjacentTexts rest = true := by
      simp only [noAdjacentTexts, Bool.and_eq_true] at hadj
      exact hadj.2
    obtain ⟨name, payload, hpeq, hbuild⟩ :=
      canon_tag_parts nm href aid cls children rest hcn
    have hp2 : partsOf (.cons (.text s)
        (.cons (.tag nm href aid cls children) rest)) =
        s :: name :: payload :: partsOf rest := by
      show prependHead s (partsOf (.cons (.tag nm href aid cls children) rest)) = _
      rw [hpeq]
      simp [prependHead, String.append_empty]
    rw [hp2, rebuildParts_cons3, if_neg hs, hbuild,
      rebuild_partsOf rest hcr hadj2]
  | .cons (.tag nm href aid cls children) rest => by
    intro hcanon hadj
    simp only [canonNodes, Bool.and_eq_true] at hcanon
    obtain ⟨hcn, hcr⟩ := hcanon
    have hadj2 : noAdjacentTexts rest = true := by
      rw [noAdjacentTexts_tag_cons] at hadj
      exact hadj
    obtain ⟨name, payload, hpeq, hbuild⟩ :=
      canon_tag_parts nm href aid cls children rest hcn
    rw [hpeq, rebuildParts_cons3, if_pos rfl, hbuild, rebuild_partsOf rest hcr hadj2]

/-- The regex split of the extraction of a canonical forest is exactly the
interleaved part list. -/
theorem markerSplit_extract (ns : PNodeList) (hc : canonNodes ns = true) :
    markerSplit (extractInline ns) = partsOf ns := by
  unfold markerSplit
  rw [splitGo_extract ns hc ((extractInline ns).data.length + 1) [] (by omega)]
  exact prependHead_empty _ (partsOf_ne_nil ns)

theorem partsOf_tag_length (nm href aid : String) (cls : List String)
    (children rest : PNodeList) :
    (partsOf (.cons (.tag nm href aid cls children) rest)).length =
      3 + (partsOf rest).length := by
  simp only [partsOf]
  by_cases h : nm = "a" <;> simp [h] <;> omega

/-- C4 counterexample: the preserve-class span `<span class="bold">a>>b</span>`
is a value producible by the extractor, but extraction followed by
reinjection yields `<span class="bold">a</span>` followed by the stray text
`b>>` — the non-greedy marker decoder is not the inverse of the encoder. -/
theorem marker_round_trip_counterexample :
    rebuildChildren (pyStrip (extractInline (nodesOf [.tag "span" "" "" ["bold"]
        (nodesOf [.text "a>>b"])]))) ≠
      nodesOf [.tag "span" "" "" ["bold"] (nodesOf [.text "a>>b"])] := by
  decide

/-- C4 (amended): for block subtrees in canonical post-smooth form —
children are non-empty `<`-free text nodes with no two adjacent, hyperlinks
with whitespace-free class names and plain (or empty) text content, and
preserve-class spans with exactly one preserve class and a non-empty inner
text free of `<`, `>`, `&` and newline — whose extracted text equals its
own strip, extraction followed by reinjection with the identity translation
reproduces the subtree exactly.  (As stated for all producible values the
law fails, see the counterexample.) -/
theorem marker_round_trip_canonical (ns : PNodeList)
    (hcanon : canonForest ns = true)
    (hstrip : pyStrip (extractInline ns) = extractInline ns) :
    rebuildChildren (pyStrip (extractInline ns)) = ns := by
  rw [hstrip]
  have hcanon2 := hcanon
  unfold canonForest at hcanon2
  rw [Bool.and_eq_true, Bool.and_eq_true] at hcanon2
  obtain ⟨⟨hne, hnodes⟩, hadj⟩ := hcanon2
  have hsplit := markerSplit_extract ns hnodes
  unfold rebuildChildren
  rw [hsplit]
  by_cases hlen : (partsOf ns).length = 1
  · rw [if_pos hlen]
    cases ns with
    | nil => simp at hne
    | cons n rest =>
      cases n with
      | tag nm href aid cls children =>
        rw [partsOf_tag_length] at hlen
        omega
      | text s =>
        cases rest with
        | nil =>
          have hex : extractInline (.cons (.text s) .nil) = s := by
            show extractChildText (.text s) ++ extractInline .nil = s
            show s ++ "" = s
            exact String.append_empty s
          rw [hex]
        | cons n2 rest2 =>
          cases n2 with
          | text s2 => simp [noAdjacentTexts] at hadj
          | tag nm2 href2 aid2 cls2 children2 =>
            have : (partsOf (.cons (.text s)
                (.cons (.tag nm2 href2 aid2 cls2 children2) rest2))).length =
                3 + (partsOf rest2).length := by
              show (prependHead s (partsOf
                (.cons (.tag nm2 href2 aid2 cls2 children2) rest2))).length = _
              have h3 := partsOf_tag_length nm2 href2 aid2 cls2 children2 rest2
              cases hp : partsOf (.cons (.tag nm2 href2 aid2 cls2 children2) rest2) with
              | nil => exact absurd hp (partsOf_ne_nil _)
              | cons p ps =>
                rw [hp] at h3
                simp only [prependHead, List.length_cons]
                simpa using h3
            rw [this] at hlen
            omega
  · rw [if_neg hlen]
    exact rebuild_partsOf ns hnodes hadj

theorem marker_round_trip_canonical_witness :
    canonForest (nodesOf [.text "Hello ", .tag "span" "" "" ["em-sesame"]
        (nodesOf [.text "world"])]) = true ∧
      pyStrip (extractInline (nodesOf [.text "Hello ", .tag "span" "" "" ["em-sesame"]
        (nodesOf [.text "world"])])) =
        extractInline (nodesOf [.text "Hello ", .tag "span" "" "" ["em-sesame"]
        (nodesOf [.text "world"])]) ∧
      rebuildChildren (pyStrip (extractInline (nodesOf [.text "Hello ",
          .tag "span" "" "" ["em-sesame"] (nodesOf [.text "world"])]))) =
        nodesOf [.text "Hello ", .tag "span" "" "" ["em-sesame"]
          (nodesOf [.text "world"])] :=
  ⟨by decide, by decide,
    marker_round_trip_canonical (nodesOf [.text "Hello ", .tag "span" "" "" ["em-sesame"]
      (nodesOf [.text "world"])]) (by decide) (by decide)⟩

/-- Model of `build_chunk_text(chunk)`: one `[index] text` line per
segment, newline-joined. -/
def build_chunk_text (chunk : List Segment) : String :=
  joinNl (chunk.map (fun s => "[" ++ natToString s.index ++ "] " ++ s.original_text))

/-- The chunk loop of `translate_and_inject` (`src/epub.py` lines 295-306):
strictly sequential; each chunk is encoded, translated with the previous
chunk's source text as context, decoded, written into its segments, and
then becomes the next context.  Returns the updated chunks and the trace
of `(text_chunk, prev_context)` arguments passed to `translate_fn`, in call
order. -/
def processChunks (fn : String → String → String) :
    List (List Segment) → String → List (List Segment) × List (String × String)
  | [], _ => ([], [])
  | c :: rest, prev =>
    let t := build_chunk_text c
    let translated := fn t prev
    let m := parse_translated_chunk translated c
    let c2 := c.map (fun s =>
      { s with translated_text := some (dictGet m s.index s.original_text) })
    let r := processChunks fn rest t
    (c2 :: r.1, (t, prev) :: r.2)

/-- Model of `translate_and_inject(segments, translate_fn, max_chars)`:
chunk, then run the sequential chunk loop from the empty context, then
reinject.  Returns the updated segment list, the per-segment rebuilt
children and the translation-call trace. -/
def translate_and_inject (segs : List Segment) (fn : String → String → String)
    (maxChars : Nat) : List Segment × List PNodeList × List (String × String) :=
  let chunks := chunk_segments segs maxChars
  let p := processChunks fn chunks ""
  let segs2 := p.1.flatten
  (segs2, injectTranslations segs2, p.2)

theorem processChunks_trace (fn : String → String → String) :
    ∀ (chunks : List (List Segment)) (prev : String),
      (processChunks fn chunks prev).2 =
        (chunks.map build_chunk_text).zip (prev :: (chunks.map build_chunk_text).dropLast) := by
  intro chunks
  induction chunks with
  | nil => intro prev; rfl
  | cons c rest ih =>
    intro prev
    show ((build_chunk_text c, prev) :: (processChunks fn rest (build_chunk_text c)).2) = _
    rw [ih (build_chunk_text c)]
    cases rest with
    | nil => rfl
    | cons r rs =>
      simp [List.dropLast]

/-- C9: within one file the chunks are translated in strict sequential
order, and the `i`-th call to `translate_fn` receives as its context the
previous chunk's encoded source text (not the previous translation
output); the first call receives the empty string.  The call trace equals
the chunk texts zipped with the same list shifted by one, seeded with
`""`. -/
theorem translate_and_inject_sequential_context (segs : List Segment)
    (fn : String → String → String) (maxChars : Nat) :
    (translate_and_inject segs fn maxChars).2.2 =
      ((chunk_segments segs maxChars).map build_chunk_text).zip
        ("" :: ((chunk_segments segs maxChars).map build_chunk_text).dropLast) := by
  unfold translate_and_inject
  exact processChunks_trace fn (chunk_segments segs maxChars) ""

/-- Concatenation of sibling lists. -/
def PNodeList.append : PNodeList → PNodeList → PNodeList
  | .nil, l => l
  | .cons n rest, l => .cons n (rest.append l)

mutual
/-- Removal of every `rp` element, `rp.decompose()` over a subtree. -/
def removeAllRpNode : PNode → PNodeList
  | .text s => .cons (.text s) .nil
  | .tag nm href aid cls children =>
    if nm = "rp" then .nil
    else .cons (.tag nm href aid cls (removeAllRpForest children)) .nil
/-- Forest version of `removeAllRpNode`. -/
def removeAllRpForest : PNodeList → PNodeList
  | .nil => .nil
  | .cons n rest => (removeAllRpNode n).append (removeAllRpForest rest)
end

/-- Removal of the first `rt` element in pre-order,
`ruby.find("rt").decompose()`; the flag reports whether one was found. -/
def removeFirstRtForest : PNodeList → PNodeList × Bool
  | .nil => (.nil, false)
  | .cons n rest =>
    match n with
    | .text s =>
      let r := removeFirstRtForest rest
      (.cons (.text s) r.1, r.2)
    | .tag nm href aid cls children =>
      if nm = "rt" then (rest, true)
      else
        let rc := removeFirstRtForest children
        if rc.2 then (.cons (.tag nm href aid cls rc.1) rest, true)
        else
          let rr := removeFirstRtForest rest
          (.cons (.tag nm href aid cls children) rr.1, rr.2)

mutual
/-- The ruby pass of `simplify_dom`: inside each `ruby`, the first `rt` and
every `rp` are removed and the `ruby` itself unwrapped.  (The source walks
a pre-order snapshot; the model processes inner rubies first, which agrees
on documents without nested ruby elements.) -/
def rubyFixNode : PNode → PNodeList
  | .text s => .cons (.text s) .nil
  | .tag nm href aid cls children =>
    let fixed := rubyFixForest children
    if nm = "ruby" then removeAllRpForest (removeFirstRtForest fixed).1
    else .cons (.tag nm href aid cls fixed) .nil
/-- Forest version of `rubyFixNode`. -/
def rubyFixForest : PNodeList → PNodeList
  | .nil => .nil
  | .cons n rest => (rubyFixNode n).append (rubyFixForest rest)
end

/-- The classes `_JP_INLINE_UNWRAP_CLASSES` whose spans are unwrapped. -/
def jpInlineUnwrapClasses : List String :=
  ["koboSpan", "tcy", "upright"]

mutual
/-- The span-unwrapping pass of `simplify_dom`: spans carrying one of the
viewer-specific classes are replaced by their children. -/
def unwrapSpanNode : PNode → PNodeList
  | .text s => .cons (.text s) .nil
  | .tag nm href aid cls children =>
    let fixed := unwrapSpanForest children
    if nm = "span" && cls.any (fun c => jpInlineUnwrapClasses.contains c) then fixed
    else .cons (.tag nm href aid cls fixed) .nil
/-- Forest version of `unwrapSpanNode`. -/
def unwrapSpanForest : PNodeList → PNodeList
  | .nil => .nil
  | .cons n rest => (unwrapSpanNode n).append (unwrapSpanForest rest)
end

/-- `body.smooth()`: adjacent text nodes are merged, recursively. -/
def smoothForest : PNodeList → PNodeList
  | .nil => .nil
  | .cons (.text a) rest =>
    (match smoothForest rest with
     | .cons (.text b) r2 => .cons (.text (a ++ b)) r2
     | r => .cons (.text a) r)
  | .cons (.tag nm href aid cls children) rest =>
    .cons (.tag nm href aid cls (smoothForest children)) (smoothForest rest)

/-- Model of `simplify_dom(body)`: ruby removal, viewer-span unwrapping,
then smoothing. -/
def simplify_dom (body : PNodeList) : PNodeList :=
  smoothForest (unwrapSpanForest (rubyFixForest body))

/-- One content file as the pipeline sees it: the `html` attributes touched
by `postprocess_xhtml`, counts of the Kobo viewer script/style elements it
removes, and the optional `body` subtree (`soup.find("body")`). -/
structure XhtmlDoc where
  langAttr : String
  xmlLangAttr : String
  htmlClasses : List String
  koboScripts : Nat
  koboStyles : Nat
  body? : Option PNodeList
deriving DecidableEq

/-- Model of `postprocess_xhtml(soup, target_lang)`: sets `lang` and
`xml:lang`, rewrites the `vrtl` class to `hltr`, removes the Kobo script
and style elements. -/
def postprocess_xhtml (d : XhtmlDoc) (targetLang : String) : XhtmlDoc :=
  { d with
    langAttr := targetLang
    xmlLangAttr := targetLang
    htmlClasses := d.htmlClasses.map (fun c => if c = "vrtl" then "hltr" else c)
    koboScripts := 0
    koboStyles := 0 }

mutual
/-- Realisation of the `TextSegment.element` back-references on the
skeleton: a node whose single text child is a placeholder receives the
rebuilt children of the segment with that index. -/
def injectNode (segs : List Segment) : PNode → PNode
  | .text s => .text s
  | .tag nm href aid cls children =>
    match children with
    | .cons (.text s) .nil =>
      (match parsePlaceholder s with
       | some i =>
         (match segs.find? (fun sg => sg.index = i) with
          | some sg => .tag nm href aid cls (rebuildChildren (chooseText sg))
          | none => .tag nm href aid cls children)
       | none => .tag nm href aid cls children)
    | _ => .tag nm href aid cls (injectForest segs children)
/-- Forest version of `injectNode`. -/
def injectForest (segs : List Segment) : PNodeList → PNodeList
  | .nil => .nil
  | .cons n rest => .cons (injectNode segs n) (injectForest segs rest)
end

/-- Model of `translate_xhtml(xhtml_path, translate_fn, target_lang,
max_chars)` (`src/epub.py` lines 393-430) on a parsed document: a document
with no `body` is reported (flag `true`) and returned unchanged with no
translation call; otherwise simplify, extract, translate-and-inject (or
skip straight to post-processing when there is no segment) and
post-process.  The second component is the reported-warning flag, the
third the trace of translation calls. -/
def translate_xhtml (d : XhtmlDoc) (fn : String → String → String)
    (targetLang : String) (maxChars : Nat) : XhtmlDoc × Bool × List (String × String) :=
  match d.body? with
  | none => (d, true, [])
  | some b =>
    let b1 := simplify_dom b
    let er := extractForestE b1 0
    let segs := er.2.1
    if segs.isEmpty then
      (postprocess_xhtml { d with body? := some er.1 } targetLang, false, [])
    else
      let r := translate_and_inject segs fn maxChars
      (postprocess_xhtml { d with body? := some (injectForest r.1 er.1) } targetLang,
        false, r.2.2)

/-- Model of the sequential (`max_workers <= 1`) file loop of
`translate_epub`: every file is translated independently and overwritten
with its own result. -/
def translate_epub_seq (docs : List XhtmlDoc) (fn : String → String → String)
    (targetLang : String) (maxChars : Nat) : List XhtmlDoc :=
  docs.map (fun d => (translate_xhtml d fn targetLang maxChars).1)

/-- C8: a file whose document tree has no body-equivalent root is reported
(warning flag, not an exception), returned unchanged, and its pipeline does
not proceed (no translation call is made); and each file of a book is
processed independently of every other, so the other files are
unaffected. -/
theorem translate_xhtml_no_body (d : XhtmlDoc) (fn : String → String → String)
    (targetLang : String) (maxChars : Nat) (h : d.body? = none) :
    translate_xhtml d fn targetLang maxChars = (d, true, []) ∧
      ∀ (docs : List XhtmlDoc) (j : Nat),
        (translate_epub_seq docs fn targetLang maxChars)[j]? =
          (docs[j]?).map (fun x => (translate_xhtml x fn targetLang maxChars).1) := by
  constructor
  · unfold translate_xhtml
    rw [h]
  · intro docs j
    simp [translate_epub_seq]

theorem translate_xhtml_no_body_witness :
    (⟨"ja", "ja", ["vrtl"], 1, 1, none⟩ : XhtmlDoc).body? = none ∧
      translate_xhtml ⟨"ja", "ja", ["vrtl"], 1, 1, none⟩ (fun t _ => t) "ko" 8000 =
        (⟨"ja", "ja", ["vrtl"], 1, 1, none⟩, true, []) :=
  ⟨by decide,
    (translate_xhtml_no_body ⟨"ja", "ja", ["vrtl"], 1, 1, none⟩ (fun t _ => t) "ko" 8000
      (by decide)).1⟩

end EpubAI
